import Mathlib

/-!
Verification of the Tree-Ops tree storage engine.

This file gives a shallow embedding, in Lean, of the tree service of the
repository (`app/ops/services/tree_service.py` and the route layer
`app/ops/routes/tree.py`), and proves properties of that embedding.

Modelling conventions:
* a database row of the `tree_nodes` table is a `Row`; the whole table is a
  `List Row`; raw-SQL updates become `List.map` over the table;
* Python strings are `List Char`; `json.dumps(s, ensure_ascii=False)` for a
  string `s` is `encodeJsonString`;
* `uuid.uuid4().int` values are supplied as explicit `Nat` arguments
  (`u`, or a stream `supply : Nat → Nat`), so the masking arithmetic of the
  code is kept while the randomness is externalised;
* `now()` timestamps are abstract `Nat` ticks supplied as arguments; all rows
  written in one transaction share one tick, as in PostgreSQL;
* `raise ValueError` in the service becomes `Except.error` with a typed
  error; validation failures that the service returns as response objects
  instead of raising (move, clone) become `.ok` responses with
  `success = false`;
* the `depth` column is `SmallInteger`: a flush or raw INSERT of a depth
  outside `[-32768, 32767]` raises a database error, modelled as
  `Except.error .smallintOutOfRange`, which aborts (rolls back) the
  transaction and reaches the routes' `except Exception` handler (HTTP 500).
-/

namespace TreeOps

/-! ### Characters and JSON string literals -/

def lbrace : Char := Char.ofNat 123

def rbrace : Char := Char.ofNat 125

/-- Lower-case hex digit, as produced by Python's `json` module. -/
def hexDigitChar (n : Nat) : Char :=
  if n < 10 then Char.ofNat (48 + n) else Char.ofNat (87 + n)

/-- Escape of one character inside a JSON string literal, following
`json.dumps(..., ensure_ascii=False)`: it escapes the quote, the backslash
and control characters (with the two-character shortcuts for
\b \t \n \f \r and `\u00XX` otherwise) and keeps every other character. -/
def escapeChar (c : Char) : List Char :=
  if c = '"' then ['\\', '"']
  else if c = '\\' then ['\\', '\\']
  else if c.toNat = 8 then ['\\', 'b']
  else if c.toNat = 9 then ['\\', 't']
  else if c.toNat = 10 then ['\\', 'n']
  else if c.toNat = 12 then ['\\', 'f']
  else if c.toNat = 13 then ['\\', 'r']
  else if c.toNat < 32 then
    ['\\', 'u', '0', '0', hexDigitChar (c.toNat / 16), hexDigitChar (c.toNat % 16)]
  else [c]

/-- `json.dumps(label, ensure_ascii=False)` for a Python string. -/
def encodeJsonString (s : List Char) : List Char :=
  '"' :: s.flatMap escapeChar ++ ['"']

def hexVal (c : Char) : Option Nat :=
  if 48 ≤ c.toNat ∧ c.toNat ≤ 57 then some (c.toNat - 48)
  else if 97 ≤ c.toNat ∧ c.toNat ≤ 102 then some (c.toNat - 87)
  else if 65 ≤ c.toNat ∧ c.toNat ≤ 70 then some (c.toNat - 55)
  else none

/-- State of the JSON string-literal scanner: scanning the body, just after a
backslash, inside a `\uXXXX` escape (`k` digits read, accumulated value `v`),
or done (closing quote seen, which must end the input). -/
inductive DecState where
  | normal (acc : List Char)
  | esc (acc : List Char)
  | hex (k : Nat) (v : Nat) (acc : List Char)
  | done (out : List Char)
deriving Repr, DecidableEq

/-- One step of the JSON string-literal scanner. -/
def decStep (st : DecState) (c : Char) : Option DecState :=
  match st with
  | .done _ => none
  | .normal acc =>
    if c = '"' then some (.done acc.reverse)
    else if c = '\\' then some (.esc acc)
    else if 32 ≤ c.toNat then some (.normal (c :: acc))
    else none
  | .esc acc =>
    if c = '"' then some (.normal ('"' :: acc))
    else if c = '\\' then some (.normal ('\\' :: acc))
    else if c = '/' then some (.normal ('/' :: acc))
    else if c = 'b' then some (.normal (Char.ofNat 8 :: acc))
    else if c = 'f' then some (.normal (Char.ofNat 12 :: acc))
    else if c = 'n' then some (.normal (Char.ofNat 10 :: acc))
    else if c = 'r' then some (.normal (Char.ofNat 13 :: acc))
    else if c = 't' then some (.normal (Char.ofNat 9 :: acc))
    else if c = 'u' then some (.hex 0 0 acc)
    else none
  | .hex k v acc =>
    match hexVal c with
    | none => none
    | some d =>
      if k = 3 then
        if Nat.isValidChar (v * 16 + d) then some (.normal (Char.ofNat (v * 16 + d) :: acc))
        else none
      else some (.hex (k + 1) (v * 16 + d) acc)

/-- Run the scanner over the remaining characters. -/
def decRun : List Char → DecState → Option (List Char)
  | [], st => match st with | .done out => some out | _ => none
  | c :: rest, st =>
    match decStep st c with
    | none => none
    | some st2 => decRun rest st2

/-- Decoder for a complete JSON string literal (exactly the escapes of the
JSON standard; unescaped control characters and trailing garbage rejected).
Returns the decoded string. -/
def decodeJsonString (s : List Char) : Option (List Char) :=
  match s with
  | [] => none
  | c :: rest => if c = '"' then decRun rest (.normal []) else none

/-! ### Data model: rows of `tree_nodes` -/

/-- One row of the `tree_nodes` table (entity `TreeNode`).  Timestamps are
abstract ticks; `created_at` is not modelled (nothing reads it). -/
structure Row where
  id : Int
  rootId : Int
  parentId : Option Int
  orgId : String
  label : List Char
  pos : Int
  pathIds : List Int
  pathPos : List Int
  depth : Int
  labelJson : List Char
  updatedAt : Nat
deriving Repr, DecidableEq

/-- Typed counterparts of the `ValueError`s raised by the service. -/
inductive TreeErr where
  | labelTooLarge
  | parentNotFound
  | depthExceeded
deriving Repr, DecidableEq

/-- `MAX_DEPTH = 32767` (SmallInteger max value). -/
def MAX_DEPTH : Int := 32767

/-- `MAX_LABEL_JSON_SIZE = 1_000_000`; the code's `len` counts characters of
the encoded string, not bytes. -/
def MAX_LABEL_JSON_SIZE : Nat := 1000000

/-- Node-id generation: `uuid.uuid4().int & 0x7FFFFFFFFFFFFFFF`. -/
def genNodeId (u : Nat) : Int :=
  Int.ofNat (u &&& 0x7FFFFFFFFFFFFFFF)

/-- `_get_next_position`'s `SELECT coalesce(max(pos), 0)` over the rows of the
given org with the given parent. -/
def maxPos (st : List Row) (org : String) (parentId : Option Int) : Int :=
  (((st.filter (fun r => r.parentId == parentId && r.orgId == org)).map Row.pos).max?).getD 0

def setUpdated (r : Row) (now : Nat) : Row :=
  { r with updatedAt := now }

/-! ### `insert_node` -/

/-- `TreeService.insert_node`.  `u` is the uuid integer used for the fresh id,
`now` the transaction timestamp.  The parent lookup mirrors the raw SQL
`SELECT ... FROM tree_nodes WHERE id = :pid`, which carries no org filter. -/
def insert_node (st : List Row) (org : String) (label : List Char)
    (parentId : Option Int) (u : Nat) (now : Nat) : Except TreeErr (Row × List Row) :=
  let nextPos := maxPos st org parentId + 1000
  let nodeId := genNodeId u
  let labelJson := encodeJsonString label
  if labelJson.length > MAX_LABEL_JSON_SIZE then .error .labelTooLarge
  else
    match parentId with
    | none =>
      let node : Row :=
        { id := nodeId, rootId := nodeId, parentId := none, orgId := org, label := label,
          pos := nextPos, pathIds := [nodeId], pathPos := [nextPos], depth := 1,
          labelJson := labelJson, updatedAt := now }
      .ok (node, st ++ [node])
    | some pid =>
      match st.find? (fun r => r.id == pid) with
      | none => .error .parentNotFound
      | some parent =>
        if parent.depth + 1 > MAX_DEPTH then .error .depthExceeded
        else
          let node : Row :=
            { id := nodeId, rootId := parent.rootId, parentId := some pid, orgId := org,
              label := label, pos := nextPos, pathIds := parent.pathIds ++ [nodeId],
              pathPos := parent.pathPos ++ [nextPos], depth := parent.depth + 1,
              labelJson := labelJson, updatedAt := now }
          .ok (node, (st ++ [node]).map (fun r => if r.id = node.rootId then setUpdated r now else r))

/-! ### `build_paths_for_bulk_insert` and `bulk_insert_adjacency` -/

/-- Entry of a bulk request, after the `int(...)` conversions of the code. -/
structure BulkEntry where
  id : Int
  label : List Char
  parentId : Option Int
  rootId : Option Int
deriving Repr, DecidableEq

/-- The computed tree information for one node (dataclass `NodeTreeInfo`). -/
structure NodeTreeInfo where
  rootId : Int
  pos : Int
  pathIds : List Int
  pathPos : List Int
  depth : Int
  labelJson : List Char
deriving Repr, DecidableEq

/-- The loop of `build_paths_for_bulk_insert`.  The two Python dicts
(`position_counters`, `node_tree_info`) are modelled extensionally as
functions, updated pointwise. -/
def buildPathsAux (nodes : List BulkEntry) (counters : Option Int → Option Int)
    (info : Int → Option NodeTreeInfo) : Except TreeErr (Int → Option NodeTreeInfo) :=
  match nodes with
  | [] => .ok info
  | e :: rest =>
    let pos : Int := match counters e.parentId with | none => 1000 | some v => v + 1000
    let counters2 := fun k => if k = e.parentId then some pos else counters k
    let core : Int × List Int × List Int × Int :=
      match e.parentId with
      | none => (e.id, [e.id], [pos], 1)
      | some p =>
        match info p with
        | some pi => (pi.rootId, pi.pathIds ++ [e.id], pi.pathPos ++ [pos], pi.depth + 1)
        | none =>
          -- fallback for an unknown parent: treated as a root
          ((match e.rootId with | some r => r | none => e.id), [e.id], [pos], 1)
    if core.2.2.2 > MAX_DEPTH then .error .depthExceeded
    else
      let labelJson := encodeJsonString e.label
      if labelJson.length > MAX_LABEL_JSON_SIZE then .error .labelTooLarge
      else
        buildPathsAux rest counters2
          (fun k => if k = e.id then
              some ⟨core.1, pos, core.2.1, core.2.2.1, core.2.2.2, labelJson⟩
            else info k)

/-- `build_paths_for_bulk_insert`. -/
def build_paths_for_bulk_insert (nodes : List BulkEntry) :
    Except TreeErr (Int → Option NodeTreeInfo) :=
  buildPathsAux nodes (fun _ => none) (fun _ => none)

/-- Row written by `bulk_insert_adjacency` for one entry. -/
def mkBulkRow (org : String) (now : Nat) (e : BulkEntry) (ti : NodeTreeInfo) : Row :=
  { id := e.id, rootId := ti.rootId, parentId := e.parentId, orgId := org, label := e.label,
    pos := ti.pos, pathIds := ti.pathIds, pathPos := ti.pathPos, depth := ti.depth,
    labelJson := ti.labelJson, updatedAt := now }

/-- `TreeService.bulk_insert_adjacency`.  Returns the created count and the new
table.  (The info lookup can in principle miss only when
`build_paths_for_bulk_insert` skipped an id, which never happens; a miss in
Python would be a `KeyError` aborting the transaction.) -/
def bulk_insert_adjacency (st : List Row) (org : String) (nodes : List BulkEntry)
    (now : Nat) : Except TreeErr (Nat × List Row) :=
  if nodes.isEmpty then .ok (0, st)
  else
    match build_paths_for_bulk_insert nodes with
    | .error err => .error err
    | .ok info =>
      let newRows := nodes.filterMap (fun e => (info e.id).map (mkBulkRow org now e))
      .ok (newRows.length, st ++ newRows)

/-! ### `FOREST_JSON_QUERY` / `fetch_forest_json`

The SQL builds, per root, a token stream over the rows of the tree ordered by
`path_pos` (PostgreSQL array comparison = lexicographic with a proper prefix
ordered first), with `LAG`/`LEAD` look-behind/ahead on `depth`, and
concatenates the per-tree strings ordered by `root_id` (the final
`STRING_AGG ... ORDER BY r.root_id`; the `ORDER BY updated_at DESC, id`
inside the `roots` CTE does not survive the outer aggregation). -/

/-- PostgreSQL array comparison (`≤`) on `BIGINT[]`: lexicographic,
a proper prefix compares smaller. -/
def lexLe : List Int → List Int → Bool
  | [], _ => true
  | _ :: _, [] => false
  | a :: as, b :: bs => if a < b then true else if b < a then false else lexLe as bs

def rowLexLe (a b : Row) : Bool := lexLe a.pathPos b.pathPos

/-- `ORDER BY path_pos` as a binary relation on rows. -/
def rowLexLeP (a b : Row) : Prop := rowLexLe a b = true

instance : DecidableRel rowLexLeP := fun a b => decEq (rowLexLe a b) true

/-- The token `]}`. -/
def closeBr : List Char := [']', rbrace]

/-- `REPEAT(']}', n)`. -/
def repClose (n : Nat) : List Char := (List.replicate n closeBr).flatten

def intChars (i : Int) : List Char := (toString i).toList

/-- `'{"id":"' || id::text || '","label":' || label_json || ',"children":['`. -/
def jsonHeader (r : Row) : List Char :=
  lbrace :: ("\"id\":\"".toList ++ intChars r.id ++ "\",\"label\":".toList
    ++ r.labelJson ++ ",\"children\":[".toList)

/-- `LEAD(depth, 1, 0)`: depth of the next row, 0 past the end. -/
def nextDepth : List Row → Int
  | [] => 0
  | r :: _ => r.depth

/-- The leading separator of a node's token: empty for the first row
(`LAG` is null) and for a first child (`depth > prev_depth`), else `,`. -/
def sepTok (prev : Option Int) (d : Int) : List Char :=
  match prev with
  | none => []
  | some p => if d > p then [] else [',']

/-- The closing brackets emitted after a node, following the four `CASE`
branches on `next_depth` versus `depth`. -/
def closeTokens (d nd : Int) : List Char :=
  if nd > d then []
  else if nd = 0 then repClose d.toNat
  else if nd < d then repClose (d - nd).toNat ++ closeBr
  else closeBr

/-- The `STRING_AGG` of per-row tokens over one `root_id` partition, rows
already in `path_pos` order; `prev` is the `LAG` value. -/
def emitRows : Option Int → List Row → List Char
  | _, [] => []
  | prev, r :: rest =>
    sepTok prev r.depth ++ jsonHeader r ++ closeTokens r.depth (nextDepth rest)
      ++ emitRows (some r.depth) rest

/-- Rows of one tree of the org, in `ORDER BY path_pos`. -/
def treeRows (st : List Row) (org : String) (rootId : Int) : List Row :=
  (st.filter (fun r => r.orgId == org && r.rootId == rootId)).insertionSort rowLexLeP

def joinComma : List (List Char) → List Char
  | [] => []
  | [x] => x
  | x :: y :: xs => x ++ ',' :: joinComma (y :: xs)

def rowIdLe (a b : Row) : Bool := a.id ≤ b.id

/-- `ORDER BY r.root_id` on root rows. -/
def rowIdLeP (a b : Row) : Prop := rowIdLe a b = true

instance : DecidableRel rowIdLeP := fun a b => decEq (rowIdLe a b) true

/-- `fetch_forest_json`: the full query.  Roots of the org are aggregated in
`root_id` order; a root whose partition produced no string (impossible for a
well-formed table, `NULL` in SQL) is skipped by `STRING_AGG`.  The empty
forest yields `[]`. -/
def fetch_forest_json (st : List Row) (org : String) : List Char :=
  let roots := (st.filter (fun r => r.parentId == none && r.orgId == org)).insertionSort rowIdLeP
  let parts := roots.filterMap (fun r =>
    let g := treeRows st org r.id
    if g.isEmpty then none else some (emitRows none g))
  '[' :: (joinComma parts ++ [']'])

/-! ### `move_node` -/

structure MoveResp where
  success : Bool
  message : String
deriving Repr, DecidableEq

/-- Database-level failures that abort the enclosing transaction: a value
out of range for a SMALLINT column, or a Python `KeyError` (malformed
table).  Both reach the routes as non-`ValueError` exceptions. -/
inductive PgErr where
  | smallintOutOfRange
  | keyError
deriving Repr, DecidableEq

/-- The range of the PostgreSQL SMALLINT `depth` column
(`depth: Mapped[int] = mapped_column(SmallInteger, ...)`). -/
def smallintOk (d : Int) : Bool := -32768 ≤ d && d ≤ 32767


/-- The mutation part of `move_node`, applied once validation passed: the
source row is rewritten under the new anchor, every other row of the org with
`sourceId ∈ path_ids` is rewritten by the bulk descendant `UPDATE`, and the
new root's `updated_at` is bumped.  (The old-root bump of the code is dead:
its guard compares `source_node.root_id`, already mutated, with
`new_root_id`, so it is never taken.)  The source row's `updated_at` is
refreshed by the ORM `onupdate`; the raw-SQL descendant update touches no
timestamp. -/
def moveApply (st : List Row) (org : String) (sourceId : Int) (tgt : Option Row)
    (now : Nat) : Except PgErr (List Row) :=
  let targetParentId := tgt.map Row.id
  let nextPos := maxPos st org targetParentId + 1000
  let anchor : Int × List Int × List Int × Int :=
    match tgt with
    | none => (sourceId, [sourceId], [nextPos], 1)
    | some tn => (tn.rootId, tn.pathIds ++ [sourceId], tn.pathPos ++ [nextPos], tn.depth + 1)
  let newRootId := anchor.1
  let newPathIds := anchor.2.1
  let newPathPos := anchor.2.2.1
  let newDepth := anchor.2.2.2
  let upd := fun (r : Row) =>
    if r.id = sourceId ∧ r.orgId = org then
      { r with parentId := targetParentId, rootId := newRootId, pos := nextPos,
               pathIds := newPathIds, pathPos := newPathPos, depth := newDepth,
               updatedAt := now }
    else if r.orgId = org ∧ sourceId ∈ r.pathIds ∧ r.id ≠ sourceId then
      let i := r.pathIds.indexOf sourceId
      { r with rootId := newRootId,
               pathIds := newPathIds ++ r.pathIds.drop (i + 1),
               pathPos := newPathPos ++ r.pathPos.drop (i + 1),
               depth := ((newPathIds ++ r.pathIds.drop (i + 1)).length : Int) }
    else r
  -- the `depth` column is SMALLINT: flushing the updated source row or a
  -- rewritten descendant whose new depth leaves the 16-bit range raises
  -- `smallint out of range` and the whole transaction rolls back
  if st.all (fun r =>
      if (r.id = sourceId ∧ r.orgId = org) ∨
          (r.orgId = org ∧ sourceId ∈ r.pathIds ∧ r.id ≠ sourceId) then
        smallintOk (upd r).depth
      else true) then
    .ok ((st.map upd).map (fun r => if r.id = newRootId then setUpdated r now else r))
  else .error .smallintOutOfRange

/-- `TreeService.move_node`.  Validation failures are returned response
objects (`success = false`), not exceptions; a database error from the
SMALLINT `depth` column aborts the transaction and propagates as an
exception (`Except.error`). -/
def move_node (st : List Row) (org : String) (sourceId : Int) (targetId : Option Int)
    (now : Nat) : Except PgErr (MoveResp × List Row) :=
  match st.find? (fun r => r.id == sourceId && r.orgId == org) with
  | none => .ok ({ success := false, message := "Source node not found" }, st)
  | some _ =>
    match targetId with
    | none =>
      (moveApply st org sourceId none now).map
        (fun st2 => ({ success := true, message := "Successfully moved node" }, st2))
    | some t =>
      match st.find? (fun r => r.id == t && r.orgId == org) with
      | none => .ok ({ success := false, message := "Target parent node not found" }, st)
      | some targetNode =>
        if sourceId ∈ targetNode.pathIds then
          .ok ({ success := false, message := "Cannot move node to its own descendant" }, st)
        else
          (moveApply st org sourceId (some targetNode) now).map
            (fun st2 => ({ success := true, message := "Successfully moved node" }, st2))

/-- The `/api/tree/move` route: it awaits the service call, *discards the
returned `MoveNodeResponse`*, and answers HTTP 200 with `success = true`;
a 400 would require a `ValueError`, which `move_node` never raises.  A
database error (SMALLINT overflow) reaches the route's `except Exception`
and becomes HTTP 500 with no `MoveNodeResponse` body, the table unchanged. -/
def move_route (st : List Row) (org : String) (sourceId : Int) (targetId : Option Int)
    (now : Nat) : (Nat × Option MoveResp) × List Row :=
  match move_node st org sourceId targetId now with
  | .ok (_, st2) =>
    ((200, some { success := true, message := "Successfully moved node" }), st2)
  | .error _ => ((500, none), st)

/-! ### `clone_node` -/

structure CloneResp where
  success : Bool
  message : String
  id : Option Int
deriving Repr, DecidableEq

/-- Lookup in the `old_to_new` association (first match; keys are distinct in
any well-formed table, matching Python dict semantics). -/
def lookupNew : List (Int × Int) → Int → Option Int
  | [], _ => none
  | (k, v) :: rest, x => if x = k then some v else lookupNew rest x

/-- Effectful map over `Option`: all results must be `some`. -/
def mapO {α β : Type} (f : α → Option β) : List α → Option (List β)
  | [] => some []
  | a :: t =>
    match f a with
    | none => none
    | some b =>
      match mapO f t with
      | none => none
      | some bs => some (b :: bs)

/-- `sorted(subtree_nodes, key=lambda n: n.depth)` — Python's stable sort by
depth; `insertionSort` is likewise stable. -/
def depthLeP (a b : Row) : Prop := a.depth ≤ b.depth

instance : DecidableRel depthLeP := fun a b => Int.decLe a.depth b.depth

/-- The row inserted for one subtree node during a clone.  `none` corresponds
to a Python `KeyError`/`IndexError` (possible only on a malformed table),
which would abort the transaction. -/
def cloneRow (oldToNew : List (Int × Int)) (sourceId : Int) (tgt : Option Row)
    (newSourceId : Int) (newRootId : Int) (anchorIds anchorPos : List Int)
    (nextPos : Int) (org : String) (now : Nat) (node : Row) : Option Row :=
  if sourceId ∈ node.pathIds then
    let i := node.pathIds.indexOf sourceId
    let relPath := node.pathIds.drop i
    let relPos := node.pathPos.drop i
    match mapO (lookupNew oldToNew) (node.pathIds.drop i) with
    | none => none
    | some tailIds =>
      match mapO (fun p => if p.1 = 0 then some nextPos else relPos.get? p.1) relPath.enum with
      | none => none
      | some tailPos =>
        match lookupNew oldToNew node.id with
        | none => none
        | some newId =>
          some
            { id := newId
              rootId :=
                -- `new_root_id if target_parent_id else new_source_id`:
                -- Python truthiness, so a target id of 0 selects the fallback
                (match tgt with
                 | some tn => if tn.id = 0 then newSourceId else newRootId
                 | none => newSourceId)
              parentId :=
                if node.id = sourceId then tgt.map Row.id
                else node.parentId.bind (lookupNew oldToNew)
              orgId := org
              label := node.label
              pos := if node.id = sourceId then nextPos else node.pos
              pathIds := anchorIds.dropLast ++ tailIds
              pathPos := anchorPos.dropLast ++ tailPos
              depth := ((anchorIds.dropLast ++ tailIds).length : Int)
              labelJson := encodeJsonString node.label
              updatedAt := now }
  else none

/-- The mutation part of `clone_node` once source and target are validated.
A Python `KeyError` (malformed table) aborts the transaction; so does the
raw INSERT of the cloned rows when some new depth leaves the SMALLINT
range. -/
def cloneApply (st : List Row) (org : String) (sourceId : Int) (tgt : Option Row)
    (supply : Nat → Nat) (now : Nat) : Except PgErr (CloneResp × List Row) :=
  let subtree := st.filter (fun r => r.orgId == org && r.pathIds.contains sourceId)
  let oldToNew := subtree.enum.map (fun p => (p.2.id, genNodeId (supply p.1)))
  match lookupNew oldToNew sourceId with
  | none => .error .keyError
  | some newSourceId =>
    let nextPos := maxPos st org (tgt.map Row.id) + 1000
    let anchor : Int × List Int × List Int :=
      match tgt with
      | none => (newSourceId, [newSourceId], [nextPos])
      | some tn => (tn.rootId, tn.pathIds ++ [newSourceId], tn.pathPos ++ [nextPos])
    let sorted := subtree.insertionSort depthLeP
    match mapO (cloneRow oldToNew sourceId tgt newSourceId anchor.1
        anchor.2.1 anchor.2.2 nextPos org now) sorted with
    | none => .error .keyError
    | some newRows =>
      -- the `depth` column is SMALLINT: the INSERT raises
      -- `smallint out of range` if any cloned row is too deep
      if newRows.all (fun r => smallintOk r.depth) then
        let st2 := st ++ newRows
        let st3 :=
          match tgt with
          | some _ => st2.map (fun r => if r.id = anchor.1 then setUpdated r now else r)
          | none => st2
        .ok ({ success := true, message := "Successfully cloned node",
               id := some newSourceId }, st3)
      else .error .smallintOutOfRange

/-- `TreeService.clone_node`.  Not-found validations are returned response
objects (`success = false`); `KeyError` and database errors propagate as
exceptions. -/
def clone_node (st : List Row) (org : String) (sourceId : Int) (targetId : Option Int)
    (supply : Nat → Nat) (now : Nat) : Except PgErr (CloneResp × List Row) :=
  match st.find? (fun r => r.id == sourceId && r.orgId == org) with
  | none => .ok ({ success := false, message := "Source node not found", id := none }, st)
  | some _ =>
    match targetId with
    | none => cloneApply st org sourceId none supply now
    | some t =>
      match st.find? (fun r => r.id == t && r.orgId == org) with
      | none =>
        .ok ({ success := false, message := "Target parent node not found", id := none }, st)
      | some targetNode => cloneApply st org sourceId (some targetNode) supply now

/-- The `/api/tree/clone` route.  The service call's *whole
`CloneNodeResponse` object* is what the route passes as the `id : str | None`
field of the response it builds, so pydantic raises a `ValidationError` — a
subclass of `ValueError` — and the route's first handler answers HTTP
**400**, after the service transaction has already committed: the clone id
is never returned over HTTP.  A database error (SMALLINT `depth` overflow,
`KeyError`) reaches `except Exception` and becomes HTTP 500 with the table
unchanged. -/
def clone_route (st : List Row) (org : String) (sourceId : Int) (targetId : Option Int)
    (supply : Nat → Nat) (now : Nat) : (Nat × Option CloneResp) × List Row :=
  match clone_node st org sourceId targetId supply now with
  | .ok (_, st2) => ((400, none), st2)
  | .error _ => ((500, none), st)

/-! ### Trees of rows, used to analyse bulk-load + GET -/

mutual
inductive ATree : Type where
  | node : Row → AForest → ATree
deriving Repr, DecidableEq
inductive AForest : Type where
  | nil : AForest
  | cons : ATree → AForest → AForest
deriving Repr, DecidableEq
end

mutual
def flattenT : ATree → List Row
  | .node r f => r :: flattenF f
def flattenF : AForest → List Row
  | .nil => []
  | .cons t f => flattenT t ++ flattenF f
end

mutual
/-- The canonical nested JSON document of one tree:
`{"id":"<id>","label":<label_json>,"children":[…]}`, children separated by
commas. -/
def renderT : ATree → List Char
  | .node r f => jsonHeader r ++ (renderF f ++ closeBr)
def renderF : AForest → List Char
  | .nil => []
  | .cons t .nil => renderT t
  | .cons t (.cons t2 f) => renderT t ++ ',' :: renderF (.cons t2 f)
end

def toListF : AForest → List ATree
  | .nil => []
  | .cons t f => t :: toListF f

def treeRootId : ATree → Int
  | .node r _ => r.id

def treeIdLe (a b : ATree) : Bool := treeRootId a ≤ treeRootId b

/-- Canonical ordering of the trees of a rendered forest: ascending root id. -/
def treeIdLeP (a b : ATree) : Prop := treeIdLe a b = true

instance : DecidableRel treeIdLeP := fun a b => decEq (treeIdLe a b) true

/-- The forest induced by a batch whose parents precede their children:
roots are the entries without parent, in batch order; the children of the
node of entry `x` are the entries whose `parentId` is `x`, in batch order.
Each node carries the row `rm entry`. -/
def abuild (rm : BulkEntry → Row) : List BulkEntry → Option Int → AForest
  | [], _ => .nil
  | e :: rest, pid =>
    if e.parentId = pid then
      .cons (.node (rm e) (abuild rm rest (some e.id))) (abuild rm rest pid)
    else abuild rm rest pid

/-- Modelled from the spec: the row data the canonical rendering reads from a
batch entry — its id and its label as a JSON string literal.  The remaining
fields are irrelevant to the rendering and left zero. -/
def crow (e : BulkEntry) : Row :=
  { id := e.id, rootId := e.id, parentId := e.parentId, orgId := "", label := e.label,
    pos := 0, pathIds := [], pathPos := [], depth := 0,
    labelJson := encodeJsonString e.label, updatedAt := 0 }

/-- Modelled from the spec ("Round-trip", §4.3, §8): the canonical rendering
of a batch: one JSON object per node with the id emitted as a string, each
node's children in batch insertion order, the per-tree documents joined in a
JSON array.  The spec orders roots by `updated_at` descending then id; a
single bulk load stamps every row with the same transaction timestamp, so
the canonical order of the loaded forest is ascending root id. -/
def canonicalRender (es : List BulkEntry) : List Char :=
  '[' :: (joinComma (((toListF (abuild crow es none)).insertionSort treeIdLeP).map renderT) ++ [']'])

/-- Every entry's parent id appears among the ids of earlier entries. -/
def parentsSeenB : List Int → List BulkEntry → Bool
  | _, [] => true
  | seen, e :: rest =>
    (match e.parentId with | none => true | some p => seen.contains p) &&
      parentsSeenB (e.id :: seen) rest

/-- The bulk-load precondition of the claim: every parent appears before its
children, and ids are unique. -/
def Pre (es : List BulkEntry) : Prop :=
  parentsSeenB [] es = true ∧ (es.map BulkEntry.id).Nodup

/-- The batch suffix strictly after the (first) entry with id `x`. -/
def sufAfter (x : Int) : List BulkEntry → List BulkEntry
  | [] => []
  | e :: rest => if e.id = x then rest else sufAfter x rest

/-- Row attached by the analysis to an entry: the row `bulk_insert_adjacency`
writes for it (total; the default branch is unreachable once
`build_paths_for_bulk_insert` succeeded). -/
def rowOfI (org : String) (now : Nat) (info : Int → Option NodeTreeInfo) (e : BulkEntry) : Row :=
  match info e.id with
  | some ti => mkBulkRow org now e ti
  | none => mkBulkRow org now e ⟨e.id, 0, [], [], 0, []⟩

def firstPosGt (p : Int) : AForest → Prop
  | .nil => True
  | .cons (.node r _) _ => p < r.pos

mutual
/-- Structural coherence of an annotated tree: the root row carries the given
`path_pos`, depth and root id, and each child row extends its parent's
`path_pos` by its own `pos`, with sibling positions strictly increasing. -/
def cohT : ATree → List Int → Int → Int → Prop
  | .node r f, pp, d, rid => r.pathPos = pp ∧ r.depth = d ∧ r.rootId = rid ∧ cohF f pp d rid
def cohF : AForest → List Int → Int → Int → Prop
  | .nil, _, _, _ => True
  | .cons t f, pp, d, rid =>
    cohT t (pp ++ [posOfT t]) (d + 1) rid ∧ firstPosGt (posOfT t) f ∧ cohF f pp d rid
def posOfT : ATree → Int
  | .node r _ => r.pos
end

/-- The continuation closers owed after a subtree: enough `]}` tokens to come
back down to the depth of the next emitted row (or to close everything at the
end of the tree). -/
def contClose (d : Int) (rest : List Row) : List Char :=
  match rest with
  | [] => repClose (d - 1).toNat
  | r :: _ => repClose (d - r.depth).toNat

/-- What may follow the rows of a subtree rooted at depth `d` in a valid
per-tree emission: nothing, or a row at depth between 1 and `d`. -/
def RestOk (rest : List Row) (d : Int) : Prop :=
  rest = [] ∨ (1 ≤ nextDepth rest ∧ nextDepth rest ≤ d)

/-! ### Well-formedness of a table (the §3 invariants used by clone) -/

/-- The parts of the materialized-path invariants that `clone_node` relies
on: the path ends at the row's own id, `path_pos` is aligned with
`path_ids`, `parent_id` is the penultimate path entry, and every proper
path prefix is materialized by a row of the same org. -/
@[reducible] def WfRow (st : List Row) (r : Row) : Prop :=
  r.pathIds ≠ [] ∧
  r.pathIds.get? 0 = some r.rootId ∧
  r.pathIds.getLast? = some r.id ∧
  r.pathPos.length = r.pathIds.length ∧
  (r.pathIds.length = 1 → r.parentId = none) ∧
  (2 ≤ r.pathIds.length → r.parentId = r.pathIds.get? (r.pathIds.length - 2)) ∧
  (∀ i ∈ List.range (r.pathIds.length - 1),
    ∃ a ∈ st, a.orgId = r.orgId ∧ a.pathIds = r.pathIds.take (i + 1) ∧
      a.pathPos = r.pathPos.take (i + 1))

@[reducible] def WfState (st : List Row) : Prop :=
  (st.map Row.id).Nodup ∧ ∀ r ∈ st, WfRow st r

/-! ### Concrete states and batches used by individual claims -/

/-- Scenario 1 of the spec: bulk `[(1,"A",∅), (2,"B",1), (3,"C",1), (4,"D",3)]`. -/
def scenario1 : List BulkEntry :=
  [⟨1, ['A'], none, some 1⟩, ⟨2, ['B'], some 1, some 1⟩,
   ⟨3, ['C'], some 1, some 1⟩, ⟨4, ['D'], some 3, some 1⟩]

/-- A single-entry batch whose label encodes to 1,000,001 characters. -/
def bigLabelEntry : BulkEntry :=
  ⟨1, List.replicate 999999 'a', none, none⟩

/-- Tree `1→2→{3,4}, 1→5` (spec scenarios 3–6), as a bulk batch. -/
def mvBatch : List BulkEntry :=
  [⟨1, ['r'], none, none⟩, ⟨2, ['a'], some 1, none⟩, ⟨3, ['b'], some 2, none⟩,
   ⟨4, ['c'], some 2, none⟩, ⟨5, ['d'], some 1, none⟩]

/-- Strict version of the `path_pos` ordering. -/
def rowLexLt (a b : Row) : Prop :=
  lexLe a.pathPos b.pathPos = true ∧ a.pathPos ≠ b.pathPos

/-- Root order on batch entries: ascending id. -/
def entryIdLeP (a b : BulkEntry) : Prop := a.id ≤ b.id

instance : DecidableRel entryIdLeP := fun a b => Int.decLe a.id b.id

/-- The annotated tree of one entry: its row, with the children built from
the batch suffix after the entry. -/
def nodeOfE (rm : BulkEntry → Row) (es : List BulkEntry) (e : BulkEntry) : ATree :=
  .node (rm e) (abuild rm (sufAfter e.id es) (some e.id))

/-- The gap position the bulk loader assigns to the next entry of the
sibling group `pid`, after the prefix `pre` has been processed. -/
def posSpec (pre : List BulkEntry) (pid : Option Int) : Int :=
  1000 * ((pre.countP (fun q => decide (q.parentId = pid)) : Int) + 1)

/-- The `NodeTreeInfo` of a root entry. -/
def rootInfoSpec (pre : List BulkEntry) (e : BulkEntry) : NodeTreeInfo :=
  ⟨e.id, posSpec pre none, [e.id], [posSpec pre none], 1, encodeJsonString e.label⟩

/-- The `NodeTreeInfo` of a child entry, derived from its parent's. -/
def childInfoSpec (pre : List BulkEntry) (p : Int) (ip : NodeTreeInfo)
    (e : BulkEntry) : NodeTreeInfo :=
  ⟨ip.rootId, posSpec pre (some p), ip.pathIds ++ [e.id],
    ip.pathPos ++ [posSpec pre (some p)], ip.depth + 1, encodeJsonString e.label⟩

/-- Characterisation of the info map built by `build_paths_for_bulk_insert`:
at every decomposition of the batch, the entry's info is derived from the
prefix (for the position count) and from its parent's info. -/
def InfoSpec (l : List BulkEntry) (f : Int → Option NodeTreeInfo) : Prop :=
  ∀ pre e post, l = pre ++ e :: post →
    (e.parentId = none → f e.id = some (rootInfoSpec pre e)) ∧
    (∀ p, e.parentId = some p →
      ∃ ip, f p = some ip ∧ f e.id = some (childInfoSpec pre p ip e))

/-- A successfully analysed batch: the info map is defined exactly on the
batch ids and satisfies the per-entry characterisation. -/
def GoodInfo (es : List BulkEntry) (info : Int → Option NodeTreeInfo) : Prop :=
  (∀ x, (info x).isSome = true ↔ x ∈ es.map BulkEntry.id) ∧ InfoSpec es info

/-- The four rows created by bulk-loading scenario 1 into an empty table
(org `"default"`, transaction tick 7). -/
def scenario1Rows : List Row :=
  [{ id := 1, rootId := 1, parentId := none, orgId := "default", label := ['A'],
     pos := 1000, pathIds := [1], pathPos := [1000], depth := 1,
     labelJson := ['\"', 'A', '\"'], updatedAt := 7 },
   { id := 2, rootId := 1, parentId := some 1, orgId := "default", label := ['B'],
     pos := 1000, pathIds := [1, 2], pathPos := [1000, 1000], depth := 2,
     labelJson := ['\"', 'B', '\"'], updatedAt := 7 },
   { id := 3, rootId := 1, parentId := some 1, orgId := "default", label := ['C'],
     pos := 2000, pathIds := [1, 3], pathPos := [1000, 2000], depth := 2,
     labelJson := ['\"', 'C', '\"'], updatedAt := 7 },
   { id := 4, rootId := 1, parentId := some 3, orgId := "default", label := ['D'],
     pos := 1000, pathIds := [1, 3, 4], pathPos := [1000, 2000, 1000], depth := 3,
     labelJson := ['\"', 'D', '\"'], updatedAt := 7 }]

/-- The subtree rows selected by `clone_node`: same org, path through the
source. -/
def cloneSubtree (st : List Row) (org : String) (sourceId : Int) : List Row :=
  st.filter (fun r => r.orgId == org && r.pathIds.contains sourceId)

/-- The ids `clone_node` generates, one per subtree row, in order. -/
def cloneNews (st : List Row) (org : String) (sourceId : Int) (supply : Nat → Nat) : List Int :=
  (List.range (cloneSubtree st org sourceId).length).map (fun i => genNodeId (supply i))

/-- Row `i` of a root-to-leaf chain `1 → 2 → ⋯`, at depth `i`. -/
def chainRow (i : Nat) : Row :=
  { id := Int.ofNat i, rootId := 1,
    parentId := if i = 1 then none else some (Int.ofNat i - 1),
    orgId := "default", label := ['c'], pos := 1000,
    pathIds := (List.range i).map (fun k => Int.ofNat (k + 1)),
    pathPos := List.replicate i 1000, depth := Int.ofNat i,
    labelJson := ['"', 'c', '"'], updatedAt := 0 }

/-- An unrelated root node, the source of the deep move. -/
def moveSrcRow : Row :=
  { id := 40000, rootId := 40000, parentId := none, orgId := "default", label := ['s'],
    pos := 1000, pathIds := [40000], pathPos := [1000], depth := 1,
    labelJson := ['"', 's', '"'], updatedAt := 0 }

/-- The first `n` rows of the chain, in id order. -/
def chainRowsRec : Nat → List Row
  | 0 => []
  | n + 1 => chainRowsRec n ++ [chainRow (n + 1)]

/-- A chain of depth `n` together with the extra root: the state on which the
move with no depth validation is exercised. -/
def chainState (n : Nat) : List Row :=
  chainRowsRec n ++ [moveSrcRow]

/-- The root created by `insert_node [] "org1" ['R'] none 1 1`. -/
def org1Root : Row :=
  { id := 1, rootId := 1, parentId := none, orgId := "org1", label := ['R'], pos := 1000,
    pathIds := [1], pathPos := [1000], depth := 1, labelJson := ['"', 'R', '"'], updatedAt := 1 }

/-- The row the cross-tenant insert creates: an `"org2"` row attached inside
`"org1"`'s tree. -/
def crossChild : Row :=
  { id := 2, rootId := 1, parentId := some 1, orgId := "org2", label := ['K'], pos := 1000,
    pathIds := [1, 2], pathPos := [1000, 1000], depth := 2, labelJson := ['"', 'K', '"'],
    updatedAt := 3 }

/-- Root `1`, labelled `A`, created at tick 1. -/
def c3rowA : Row :=
  { id := 1, rootId := 1, parentId := none, orgId := "default", label := ['A'], pos := 1000,
    pathIds := [1], pathPos := [1000], depth := 1, labelJson := ['"', 'A', '"'], updatedAt := 1 }

/-- Root `2`, labelled `B`, created (and last updated) at tick 5. -/
def c3rowB : Row :=
  { id := 2, rootId := 2, parentId := none, orgId := "default", label := ['B'], pos := 2000,
    pathIds := [2], pathPos := [2000], depth := 1, labelJson := ['"', 'B', '"'], updatedAt := 5 }

/-- The state bulk-loading `mvBatch` at tick 7 produces. -/
def mvState : List Row :=
  [{ id := 1, rootId := 1, parentId := none, orgId := "default", label := ['r'], pos := 1000,
     pathIds := [1], pathPos := [1000], depth := 1, labelJson := ['"', 'r', '"'], updatedAt := 7 },
   { id := 2, rootId := 1, parentId := some 1, orgId := "default", label := ['a'], pos := 1000,
     pathIds := [1, 2], pathPos := [1000, 1000], depth := 2, labelJson := ['"', 'a', '"'],
     updatedAt := 7 },
   { id := 3, rootId := 1, parentId := some 2, orgId := "default", label := ['b'], pos := 1000,
     pathIds := [1, 2, 3], pathPos := [1000, 1000, 1000], depth := 3,
     labelJson := ['"', 'b', '"'], updatedAt := 7 },
   { id := 4, rootId := 1, parentId := some 2, orgId := "default", label := ['c'], pos := 2000,
     pathIds := [1, 2, 4], pathPos := [1000, 1000, 2000], depth := 3,
     labelJson := ['"', 'c', '"'], updatedAt := 7 },
   { id := 5, rootId := 1, parentId := some 1, orgId := "default", label := ['d'], pos := 2000,
     pathIds := [1, 5], pathPos := [1000, 2000], depth := 2, labelJson := ['"', 'd', '"'],
     updatedAt := 7 }]

/-- The three rows inserted by cloning node 2 under node 5 on `mvState` with
the uuid supply `fun i => 1000 + i` at time 9. -/
def c8NewRows : List Row :=
  [{ id := 1000, rootId := 1, parentId := some 5, orgId := "default", label := ['a'],
     pos := 1000, pathIds := [1, 5, 1000], pathPos := [1000, 2000, 1000], depth := 3,
     labelJson := ['"', 'a', '"'], updatedAt := 9 },
   { id := 1001, rootId := 1, parentId := some 1000, orgId := "default", label := ['b'],
     pos := 1000, pathIds := [1, 5, 1000, 1001], pathPos := [1000, 2000, 1000, 1000],
     depth := 4, labelJson := ['"', 'b', '"'], updatedAt := 9 },
   { id := 1002, rootId := 1, parentId := some 1000, orgId := "default", label := ['c'],
     pos := 2000, pathIds := [1, 5, 1000, 1002], pathPos := [1000, 2000, 1000, 2000],
     depth := 4, labelJson := ['"', 'c', '"'], updatedAt := 9 }]

/-- The table after that clone: the destination root's `updated_at` is
stamped and the three cloned rows are appended. -/
def c8State : List Row :=
  mvState.map (fun r => if r.id = 1 then setUpdated r 9 else r) ++ c8NewRows

/-! ## Theorems -/

/-! ### Generic helper lemmas -/

theorem mapO_mem {α β : Type} (f : α → Option β) :
    ∀ (l : List α) (ys : List β), mapO f l = some ys → ∀ y ∈ ys, ∃ x ∈ l, f x = some y := by
  intro l
  induction l with
  | nil => intro ys h y hy; simp only [mapO, Option.some.injEq] at h; subst h; simp at hy
  | cons a t ih =>
    intro ys h y hy
    simp only [mapO] at h
    cases ha : f a with
    | none => rw [ha] at h; simp at h
    | some b =>
      rw [ha] at h
      cases ht : mapO f t with
      | none => rw [ht] at h; simp at h
      | some bs =>
        rw [ht] at h
        simp only [Option.some.injEq] at h
        subst h
        rcases List.mem_cons.mp hy with h1 | h2
        · exact ⟨a, List.mem_cons_self a t, by rw [ha, h1]⟩
        · rcases ih bs ht y h2 with ⟨x, hx, hfx⟩
          exact ⟨x, List.mem_cons_of_mem a hx, hfx⟩

theorem lookupNew_mem_snd : ∀ (l : List (Int × Int)) (x v : Int),
    lookupNew l x = some v → v ∈ l.map Prod.snd := by
  intro l
  induction l with
  | nil => intro x v h; simp [lookupNew] at h
  | cons p t ih =>
    intro x v h
    simp only [lookupNew] at h
    by_cases hx : x = p.1
    · simp [hx] at h; simp [h]
    · simp [hx] at h
      simp only [List.map_cons, List.mem_cons]
      exact Or.inr (ih x v h)

/-! ### C10: bulk-load of an empty list -/

/-- C10: bulk-load of an empty list of entries returns a created count of 0
and performs no write: the table is returned unchanged, for every tenant and
every prior state. -/
theorem bulk_empty_noop (st : List Row) (org : String) (now : Nat) :
    bulk_insert_adjacency st org [] now = .ok (0, st) := rfl

/-! ### C9: generated ids fit a signed 64-bit column -/

theorem cloneRow_id {oldToNew sourceId tgt newSourceId newRootId anchorIds anchorPos
    nextPos org now node row} (h : cloneRow oldToNew sourceId tgt newSourceId newRootId
      anchorIds anchorPos nextPos org now node = some row) :
    lookupNew oldToNew node.id = some row.id := by
  simp only [cloneRow] at h
  split at h
  · split at h
    · exact absurd h (by simp)
    · split at h
      · exact absurd h (by simp)
      · split at h
        · exact absurd h (by simp)
        · rename_i v hv
          simp only [Option.some.injEq] at h
          subst h
          exact hv
  · exact absurd h (by simp)

theorem cloneApply_ids {st : List Row} {org : String} {sid : Int} {tgt : Option Row}
    {supply : Nat → Nat} {now : Nat} {resp : CloneResp} {st2 : List Row}
    (h : cloneApply st org sid tgt supply now = .ok (resp, st2)) :
    ∀ r ∈ st2, r.id ∈ st.map Row.id ∨ ∃ i, r.id = genNodeId (supply i) := by
  intro r hr
  simp only [cloneApply] at h
  split at h
  · exact absurd h (by simp)
  · rename_i newSourceId hlook
    split at h
    · exact absurd h (by simp)
    · rename_i newRows hrows
      have hmem : ∀ x ∈ st ++ newRows, x.id ∈ st.map Row.id ∨ ∃ i, x.id = genNodeId (supply i) := by
        intro x hx
        rcases List.mem_append.mp hx with hx | hx
        · exact Or.inl (List.mem_map_of_mem Row.id hx)
        · rcases mapO_mem _ _ _ hrows x hx with ⟨n, _, hn⟩
          have hid := cloneRow_id hn
          have hv := lookupNew_mem_snd _ _ _ hid
          simp only [List.map_map, List.mem_map] at hv
          rcases hv with ⟨p, _, hp⟩
          exact Or.inr ⟨p.1, hp.symm⟩
      split at h
      · split at h
        · cases h
          rcases List.mem_map.mp hr with ⟨x, hx, hxr⟩
          have := hmem x hx
          have hval : r.id = x.id := by
            rw [← hxr]; split
            · rfl
            · rfl
          rw [hval]; exact this
        · cases h
          exact hmem r hr
      · exact absurd h (by simp)

/-- C9: every node id generated by insert or by clone is the uuid integer
masked with `0x7FFFFFFFFFFFFFFF`, hence lies in `[0, 2^63 − 1]` and fits a
signed 64-bit column: (i) the range of `genNodeId`; (ii) the row created by a
successful insert has id `genNodeId u`; (iii) every row of a post-clone table
either keeps an id already in the table or carries `genNodeId` of a supply
value. -/
theorem generated_ids_range :
    (∀ u : Nat, 0 ≤ genNodeId u ∧ genNodeId u ≤ 2 ^ 63 - 1) ∧
    (∀ st org label parentId u now r st2,
      insert_node st org label parentId u now = .ok (r, st2) → r.id = genNodeId u) ∧
    (∀ st org sid tid supply now resp st2,
      clone_node st org sid tid supply now = .ok (resp, st2) →
      ∀ r ∈ st2, r.id ∈ st.map Row.id ∨ ∃ i, r.id = genNodeId (supply i)) := by
  refine ⟨?_, ?_, ?_⟩
  · intro u
    constructor
    · exact Int.ofNat_nonneg _
    · have h : u &&& 0x7FFFFFFFFFFFFFFF ≤ 0x7FFFFFFFFFFFFFFF := Nat.and_le_right
      have : (Int.ofNat (u &&& 0x7FFFFFFFFFFFFFFF)) ≤ Int.ofNat 0x7FFFFFFFFFFFFFFF :=
        Int.ofNat_le.mpr h
      calc genNodeId u ≤ Int.ofNat 0x7FFFFFFFFFFFFFFF := this
        _ = 2 ^ 63 - 1 := by decide
  · intro st org label parentId u now r st2 h
    simp only [insert_node] at h
    split at h
    · exact absurd h (by simp)
    · split at h
      · simp only [Except.ok.injEq, Prod.mk.injEq] at h
        rw [← h.1]
      · split at h
        · exact absurd h (by simp)
        · split at h
          · exact absurd h (by simp)
          · simp only [Except.ok.injEq, Prod.mk.injEq] at h
            rw [← h.1]
  · intro st org sid tid supply now resp st2 h
    simp only [clone_node] at h
    split at h
    · cases h; intro r hr; exact Or.inl (List.mem_map_of_mem Row.id hr)
    · split at h
      · exact cloneApply_ids h
      · split at h
        · cases h; intro r hr; exact Or.inl (List.mem_map_of_mem Row.id hr)
        · exact cloneApply_ids h

/-- Witness for C9 at concrete inputs: the range bound at `u = 5`, and the id
of the row created by a concrete insert. -/
theorem generated_ids_range_witness :
    (0 ≤ genNodeId 5 ∧ genNodeId 5 ≤ 2 ^ 63 - 1) ∧ org1Root.id = genNodeId 1 :=
  ⟨generated_ids_range.1 5,
    generated_ids_range.2.1 [] "org1" ['R'] none 1 1 org1Root [org1Root] (by rfl)⟩

/-! ### C1: insert derives the materialized-path columns -/

/-- C1: for every node created by `insert_node`: a root row has
`root_id = id`, `path_ids = [id]`, `path_pos = [pos]`, `depth = 1`; a child
row extends the parent row found by the lookup: `root_id = P.root_id`,
`path_ids = P.path_ids ++ [id]`, `path_pos = P.path_pos ++ [pos]`,
`depth = P.depth + 1`. -/
theorem insert_node_derives_paths (st : List Row) (org : String) (label : List Char)
    (parentId : Option Int) (u : Nat) (now : Nat) (r : Row) (st2 : List Row)
    (h : insert_node st org label parentId u now = .ok (r, st2)) :
    (parentId = none →
      r.rootId = r.id ∧ r.pathIds = [r.id] ∧ r.pathPos = [r.pos] ∧ r.depth = 1) ∧
    (∀ pid, parentId = some pid →
      ∃ P, st.find? (fun x => x.id == pid) = some P ∧ r.rootId = P.rootId ∧
        r.pathIds = P.pathIds ++ [r.id] ∧ r.pathPos = P.pathPos ++ [r.pos] ∧
        r.depth = P.depth + 1) := by
  cases hp : parentId with
  | none =>
    subst hp
    simp only [insert_node] at h
    split at h
    · cases h
    · simp only [Except.ok.injEq, Prod.mk.injEq] at h
      refine ⟨fun _ => ?_, fun pid hpid => by cases hpid⟩
      rw [← h.1]
      exact ⟨rfl, rfl, rfl, rfl⟩
  | some pid =>
    subst hp
    simp only [insert_node] at h
    split at h
    · cases h
    · refine ⟨(fun hc => by cases hc), fun pid2 hpid2 => ?_⟩
      cases hpid2
      split at h
      · cases h
      · rename_i P heq
        split at h
        · cases h
        · simp only [Except.ok.injEq, Prod.mk.injEq] at h
          refine ⟨P, heq, ?_⟩
          rw [← h.1]
          exact ⟨rfl, rfl, rfl, rfl⟩

/-- Witness for C1: the concrete child insert under `org1Root` satisfies the
four derivation equations. -/
theorem insert_node_derives_paths_witness :
    crossChild.rootId = org1Root.rootId ∧
    crossChild.pathIds = org1Root.pathIds ++ [crossChild.id] ∧
    crossChild.pathPos = org1Root.pathPos ++ [crossChild.pos] ∧
    crossChild.depth = org1Root.depth + 1 := by
  have h := (insert_node_derives_paths [org1Root] "org2" ['K'] (some 1) 2 3 crossChild
      [setUpdated org1Root 3, crossChild] (by rfl)).2 1 rfl
  rcases h with ⟨P, hfind, h1, h2, h3, h4⟩
  have hP : some P = some org1Root := by rw [← hfind]; rfl
  cases hP
  exact ⟨h1, h2, h3, h4⟩

/-! ### C7: the insert parent lookup is not tenant-scoped -/

/-- C7 (divergence): `insert_node`'s parent lookup (raw SQL
`WHERE id = :pid`, no org filter) finds a parent that exists only in another
tenant.  Inserting into `"org2"` with the `"org1"`-only parent id 1 succeeds
instead of failing with `ParentNotFound`, attaches the new `"org2"` row inside
`"org1"`'s tree, and even bumps `"org1"`'s root `updated_at`. -/
theorem insert_parent_lookup_cross_tenant :
    insert_node [] "org1" ['R'] none 1 1 = .ok (org1Root, [org1Root]) ∧
    insert_node [org1Root] "org2" ['K'] (some 1) 2 3 =
      .ok (crossChild, [setUpdated org1Root 3, crossChild]) ∧
    org1Root.orgId = "org1" ∧ crossChild.orgId = "org2" ∧
    crossChild.rootId = org1Root.id ∧ crossChild.parentId = some org1Root.id := by
  refine ⟨by rfl, by rfl, rfl, rfl, by decide, by decide⟩

/-! ### C5: cycle rejection leaves the rows intact but surfaces as HTTP 200 -/

/-- C5 (divergence): on the spec's scenario-6 input (move `2` under its own
descendant `4` in the tree bulk-loaded from `mvBatch`), the service refuses
the move and changes no row — but the route discards the service's failure
response and answers HTTP **200** with `success = true`, not 400. -/
theorem move_cycle_rows_unchanged_but_http200 :
    bulk_insert_adjacency [] "default" mvBatch 7 = .ok (5, mvState) ∧
    move_node mvState "default" 2 (some 4) 9 =
      .ok ({ success := false, message := "Cannot move node to its own descendant" }, mvState) ∧
    move_route mvState "default" 2 (some 4) 9 =
      ((200, some { success := true, message := "Successfully moved node" }), mvState) := by
  refine ⟨by rfl, by rfl, by rfl⟩

/-! ### C3: the forest document ignores `updated_at` recency -/

/-- C3 (divergence): with two roots where root 2 was updated after root 1
(`updated_at` 5 > 1, a state produced by two root inserts), the claim orders
tree 2 first (`updated_at` descending); the query's final
`STRING_AGG ... ORDER BY r.root_id` instead emits tree 1 first — ascending
root id, recency ignored. -/
theorem forest_order_ignores_recency :
    insert_node [] "default" ['A'] none 1 1 = .ok (c3rowA, [c3rowA]) ∧
    insert_node [c3rowA] "default" ['B'] none 2 5 = .ok (c3rowB, [c3rowA, c3rowB]) ∧
    c3rowA.updatedAt < c3rowB.updatedAt ∧
    fetch_forest_json [c3rowA, c3rowB] "default" =
      ("[\x7b\"id\":\"1\",\"label\":\"A\",\"children\":[]\x7d,\x7b\"id\":\"2\",\"label\":\"B\",\"children\":[]\x7d]").toList := by
  refine ⟨by rfl, by rfl, by decide, by decide⟩

/-! ### C6: label encoding and the size limit -/

theorem hexVal_hexDigitChar : ∀ m, m < 16 → hexVal (hexDigitChar m) = some m := by decide

theorem char_ofNat_toNat_eq {c : Char} {n : Nat} (h : c.toNat = n) : Char.ofNat n = c := by
  rw [← h, Char.ofNat_toNat]

/-- Scanning the escape of one character decodes back that character. -/
theorem decRun_escape (c : Char) (tail acc : List Char) :
    decRun (escapeChar c ++ tail) (.normal acc) = decRun tail (.normal (c :: acc)) := by
  by_cases h1 : c = '"'
  · subst h1
    show decRun ('\\' :: '"' :: tail) (.normal acc) = _
    simp [decRun, decStep]
  by_cases h2 : c = '\\'
  · subst h2
    show decRun ('\\' :: '\\' :: tail) (.normal acc) = _
    simp [decRun, decStep]
  by_cases h3 : c.toNat = 8
  · have hesc : escapeChar c = ['\\', 'b'] := by simp [escapeChar, h1, h2, h3]
    rw [hesc]
    show decRun ('\\' :: 'b' :: tail) (.normal acc) = _
    simp [decRun, decStep]
    rw [char_ofNat_toNat_eq h3]
  by_cases h4 : c.toNat = 9
  · have hesc : escapeChar c = ['\\', 't'] := by simp [escapeChar, h1, h2, h3, h4]
    rw [hesc]
    show decRun ('\\' :: 't' :: tail) (.normal acc) = _
    simp [decRun, decStep]
    rw [char_ofNat_toNat_eq h4]
  by_cases h5 : c.toNat = 10
  · have hesc : escapeChar c = ['\\', 'n'] := by simp [escapeChar, h1, h2, h3, h4, h5]
    rw [hesc]
    show decRun ('\\' :: 'n' :: tail) (.normal acc) = _
    simp [decRun, decStep]
    rw [char_ofNat_toNat_eq h5]
  by_cases h6 : c.toNat = 12
  · have hesc : escapeChar c = ['\\', 'f'] := by simp [escapeChar, h1, h2, h3, h4, h5, h6]
    rw [hesc]
    show decRun ('\\' :: 'f' :: tail) (.normal acc) = _
    simp [decRun, decStep]
    rw [char_ofNat_toNat_eq h6]
  by_cases h7 : c.toNat = 13
  · have hesc : escapeChar c = ['\\', 'r'] := by simp [escapeChar, h1, h2, h3, h4, h5, h6, h7]
    rw [hesc]
    show decRun ('\\' :: 'r' :: tail) (.normal acc) = _
    simp [decRun, decStep]
    rw [char_ofNat_toNat_eq h7]
  by_cases h8 : c.toNat < 32
  · have hesc : escapeChar c =
        ['\\', 'u', '0', '0', hexDigitChar (c.toNat / 16), hexDigitChar (c.toNat % 16)] := by
      simp [escapeChar, h1, h2, h3, h4, h5, h6, h7, h8]
    rw [hesc]
    show decRun ('\\' :: 'u' :: '0' :: '0' :: hexDigitChar (c.toNat / 16)
        :: hexDigitChar (c.toNat % 16) :: tail) (.normal acc) = _
    have hd1 := hexVal_hexDigitChar (c.toNat / 16) (by omega)
    have hd2 := hexVal_hexDigitChar (c.toNat % 16) (by omega)
    have hval : c.toNat / 16 * 16 + c.toNat % 16 = c.toNat := by omega
    have hvalid : Nat.isValidChar c.toNat := Or.inl (by omega)
    simp [decRun, decStep, hd1, hd2, show hexVal '0' = some 0 from by decide,
      hval, hvalid, Char.ofNat_toNat]
  · have hesc : escapeChar c = [c] := by
      simp [escapeChar, h1, h2, h3, h4, h5, h6, h7, h8]
    rw [hesc]
    show decRun (c :: tail) (.normal acc) = _
    rw [decRun]
    simp [decStep, h1, h2, Nat.le_of_not_lt h8]

theorem decRun_encode (s : List Char) :
    ∀ acc, decRun (s.flatMap escapeChar ++ ['"']) (.normal acc) = some (acc.reverse ++ s) := by
  induction s with
  | nil =>
    intro acc
    show decRun ('"' :: []) (.normal acc) = _
    simp [decRun, decStep]
  | cons c s ih =>
    intro acc
    rw [List.flatMap_cons, List.append_assoc, decRun_escape, ih (c :: acc)]
    simp

/-- `label_json` is a valid JSON string literal whose decoded value is the
label. -/
theorem decode_encode (s : List Char) : decodeJsonString (encodeJsonString s) = some s := by
  show decodeJsonString ('"' :: (s.flatMap escapeChar ++ ['"'])) = some s
  rw [decodeJsonString]
  simp only [if_pos rfl]
  rw [decRun_encode s []]
  simp

theorem flatMap_escape_replicate_a (n : Nat) :
    (List.replicate n 'a').flatMap escapeChar = List.replicate n 'a' := by
  induction n with
  | zero => rfl
  | succ n ih =>
    rw [List.replicate_succ, List.flatMap_cons, ih]
    rfl

theorem encode_replicate_a_length (n : Nat) :
    (encodeJsonString (List.replicate n 'a')).length = n + 2 := by
  rw [encodeJsonString, flatMap_escape_replicate_a]
  simp

/-- A label whose encoding fits the limit can never trigger `LabelTooLarge`. -/
theorem insert_no_labelTooLarge (st : List Row) (org : String) (label : List Char)
    (parentId : Option Int) (u : Nat) (now : Nat)
    (hlen : (encodeJsonString label).length ≤ 1000000) :
    insert_node st org label parentId u now ≠ .error .labelTooLarge := by
  simp only [insert_node]
  rw [if_neg (by simp only [MAX_LABEL_JSON_SIZE]; omega)]
  cases parentId with
  | none => simp
  | some pid =>
    dsimp only
    intro h
    split at h
    · cases h
    · split_ifs at h
      cases h

/-- C6 (counterexample): a label of 999,999 `'a'`s encodes to a JSON literal
of 1,000,001 characters — within the claimed 1,048,576-byte budget — yet the
insert fails with `LabelTooLarge`, because the code's limit is 1,000,000. -/
theorem label_limit_counterexample :
    (encodeJsonString (List.replicate 999999 'a')).length ≤ 1048576 ∧
    insert_node [] "default" (List.replicate 999999 'a') none 1 1 =
      .error .labelTooLarge := by
  constructor
  · rw [encode_replicate_a_length]; omega
  · simp only [insert_node]
    rw [if_pos]
    rw [encode_replicate_a_length]
    decide

/-- C6 (amended): `label_json` is always a valid JSON string literal decoding
back to the label; the insert fails with `LabelTooLarge` **iff** the encoded
label exceeds 1,000,000 characters (the code's `len`, counting characters,
not 1,048,576 bytes); a successful insert stores exactly that encoding; and a
root insert always succeeds when the encoding fits. -/
theorem label_limit_amended (st : List Row) (org : String) (label : List Char)
    (parentId : Option Int) (u : Nat) (now : Nat) :
    decodeJsonString (encodeJsonString label) = some label ∧
    (insert_node st org label parentId u now = .error .labelTooLarge ↔
      1000000 < (encodeJsonString label).length) ∧
    (∀ r st2, insert_node st org label parentId u now = .ok (r, st2) →
      r.labelJson = encodeJsonString label ∧ r.labelJson.length ≤ 1000000 ∧
      decodeJsonString r.labelJson = some label) ∧
    (parentId = none → (encodeJsonString label).length ≤ 1000000 →
      (insert_node st org label parentId u now).isOk = true) := by
  refine ⟨decode_encode label, ?_, ?_, ?_⟩
  · constructor
    · intro h
      by_contra hlen
      push_neg at hlen
      exact insert_no_labelTooLarge st org label parentId u now hlen h
    · intro h
      simp only [insert_node]
      rw [if_pos (by simp only [MAX_LABEL_JSON_SIZE]; omega)]
  · intro r st2 h
    have hlen : ¬ (encodeJsonString label).length > MAX_LABEL_JSON_SIZE := by
      intro hgt
      simp only [insert_node] at h
      rw [if_pos hgt] at h
      cases h
    cases parentId with
    | none =>
      simp only [insert_node] at h
      rw [if_neg hlen] at h
      simp only [Except.ok.injEq, Prod.mk.injEq] at h
      rw [← h.1]
      exact ⟨rfl, by simpa [MAX_LABEL_JSON_SIZE] using Nat.le_of_not_lt hlen,
        decode_encode label⟩
    | some pid =>
      simp only [insert_node] at h
      rw [if_neg hlen] at h
      split at h
      · cases h
      · split at h
        · cases h
        · simp only [Except.ok.injEq, Prod.mk.injEq] at h
          rw [← h.1]
          exact ⟨rfl, by simpa [MAX_LABEL_JSON_SIZE] using Nat.le_of_not_lt hlen,
            decode_encode label⟩
  · intro hp hlen
    subst hp
    simp only [insert_node]
    rw [if_neg (by simp only [MAX_LABEL_JSON_SIZE]; omega)]
    rfl

/-- Witness for C6 at a concrete label. -/
theorem label_limit_amended_witness :
    decodeJsonString (encodeJsonString ['h', 'i']) = some ['h', 'i'] ∧
    (insert_node [] "default" ['h', 'i'] none 1 1).isOk = true := by
  refine ⟨(label_limit_amended [] "default" ['h', 'i'] none 1 1).1, ?_⟩
  exact (label_limit_amended [] "default" ['h', 'i'] none 1 1).2.2.2 rfl (by decide)

/-! ### C4: `move_node` performs no depth validation -/

theorem chainRowsRec_mem : ∀ (n : Nat) (r : Row), r ∈ chainRowsRec n →
    ∃ i, 1 ≤ i ∧ i ≤ n ∧ r = chainRow i := by
  intro n
  induction n with
  | zero => intro r hr; simp [chainRowsRec] at hr
  | succ n ih =>
    intro r hr
    simp only [chainRowsRec] at hr
    rcases List.mem_append.mp hr with h | h
    · rcases ih r h with ⟨i, h1, h2, h3⟩
      exact ⟨i, h1, Nat.le_succ_of_le h2, h3⟩
    · simp at h
      exact ⟨n + 1, by omega, Nat.le_refl _, h⟩

theorem chain_find_eq_none (n : Nat) (t : Int)
    (ht : ∀ i : Nat, 1 ≤ i → i ≤ n → Int.ofNat i ≠ t) :
    (chainRowsRec n).find? (fun r => r.id == t && r.orgId == "default") = none := by
  rw [List.find?_eq_none]
  intro r hr
  rcases chainRowsRec_mem n r hr with ⟨i, h1, h2, rfl⟩
  simp [chainRow]
  intro hid
  exact absurd hid (ht i h1 h2)

theorem chain_find_last (n : Nat) (t : Int) (hn : 1 ≤ n) (ht : Int.ofNat n = t)
    (hlt : ∀ i : Nat, 1 ≤ i → i < n → Int.ofNat i ≠ t) :
    (chainRowsRec n).find? (fun r => r.id == t && r.orgId == "default") =
      some (chainRow n) := by
  cases n with
  | zero => omega
  | succ n =>
    rw [chainRowsRec, List.find?_append,
      chain_find_eq_none n t (fun i hi1 hi2 => hlt i hi1 (by omega))]
    rw [Option.none_or, List.find?_cons_of_pos]
    simp [chainRow]
    exact_mod_cast ht

theorem chain_maxPos_none (n : Nat) (t : Int)
    (ht : ∀ i : Nat, 2 ≤ i → i ≤ n → Int.ofNat i - 1 ≠ t) :
    maxPos (chainState n) "default" (some t) = 0 := by
  rw [maxPos]
  have hfil : (chainState n).filter
      (fun r => r.parentId == some t && r.orgId == "default") = [] := by
    rw [List.filter_eq_nil_iff]
    intro r hr
    rcases List.mem_append.mp hr with h | h
    · rcases chainRowsRec_mem n r h with ⟨i, h1, h2, rfl⟩
      by_cases hi : i = 1
      · simp [chainRow, hi]
      · simp [chainRow, hi]
        intro hp
        exact absurd hp (ht i (by omega) h2)
    · simp at h
      subst h
      simp [moveSrcRow]
  rw [hfil]
  rfl

/-- C4 (divergence): `move_node` carries no depth validation (the code's own
`TODO: Add max depth validation to prevent exceeding SmallInteger limit`
admits it).  On a chain of depth 32767 plus a separate root, moving the root
under the depth-32767 leaf attempts to write depth 32768 > `MAX_DEPTH` into
the SMALLINT `depth` column; the flush raises `smallint out of range`, the
transaction rolls back, and the route answers HTTP **500** with the table
unchanged — not the claimed `DepthExceeded` `ValueError` (handled as 400)
that `insert_node` and the bulk loader do implement. -/
theorem move_depth_overflow_500 :
    move_node (chainState 32767) "default" 40000 (some 32767) 9 =
      .error .smallintOutOfRange ∧
    move_route (chainState 32767) "default" 40000 (some 32767) 9 =
      ((500, none), chainState 32767) ∧
    MAX_DEPTH < (chainRow 32767).depth + 1 := by
  have hsrc : (chainState 32767).find?
      (fun r => r.id == (40000 : Int) && r.orgId == "default") = some moveSrcRow := by
    rw [chainState, List.find?_append,
      chain_find_eq_none 32767 40000 (by intro i h1 h2 heq; rw [Int.ofNat_eq_coe] at heq; omega)]
    rfl
  have htgt : (chainState 32767).find?
      (fun r => r.id == (32767 : Int) && r.orgId == "default") = some (chainRow 32767) := by
    rw [chainState, List.find?_append,
      chain_find_last 32767 32767 (by omega) (by rfl) (by intro i h1 h2 heq; rw [Int.ofNat_eq_coe] at heq; omega)]
    rfl
  have hcyc : ¬ ((40000 : Int) ∈ (chainRow 32767).pathIds) := by
    simp only [chainRow]
    intro hmem
    rcases List.mem_map.mp hmem with ⟨k, hk, he⟩
    rw [List.mem_range] at hk
    rw [Int.ofNat_eq_coe] at he
    omega
  have herr : moveApply (chainState 32767) "default" 40000 (some (chainRow 32767)) 9 =
      .error .smallintOutOfRange := by
    simp only [moveApply]
    rw [if_neg ?hall]
    case hall =>
      intro hall
      have hone := List.all_eq_true.mp hall moveSrcRow
        (List.mem_append.mpr (Or.inr (by simp)))
      rw [if_pos (Or.inl ⟨rfl, rfl⟩), if_pos ⟨rfl, rfl⟩] at hone
      dsimp only at hone
      rw [show (chainRow 32767).depth = Int.ofNat 32767 from rfl,
        show (Int.ofNat 32767) + 1 = (32768 : Int) from by decide] at hone
      exact absurd hone (by decide)
  have hmv : move_node (chainState 32767) "default" 40000 (some 32767) 9 =
      .error .smallintOutOfRange := by
    rw [move_node, hsrc, htgt]
    simp only [if_neg hcyc]
    rw [herr]
    rfl
  refine ⟨hmv, ?_, by decide⟩
  rw [move_route, hmv]

/-! ### C2: bulk load / GET round-trip.  Order lemmas for `lexLe`. -/

theorem lexLe_refl : ∀ a : List Int, lexLe a a = true := by
  intro a
  induction a with
  | nil => rfl
  | cons x as ih => simp [lexLe, lt_irrefl, ih]

theorem lexLe_trans : ∀ a b c : List Int,
    lexLe a b = true → lexLe b c = true → lexLe a c = true := by
  intro a
  induction a with
  | nil => intro b c _ _; rfl
  | cons x as ih =>
    intro b c hab hbc
    cases b with
    | nil => simp [lexLe] at hab
    | cons y bs =>
      cases c with
      | nil => simp [lexLe] at hbc
      | cons z cs =>
        simp only [lexLe] at hab hbc ⊢
        by_cases hxy : x < y
        · by_cases hyz : y < z
          · rw [if_pos (lt_trans hxy hyz)]
          · rw [if_neg hyz] at hbc
            by_cases hzy : z < y
            · rw [if_pos hzy] at hbc; exact absurd hbc (by decide)
            · have hyz' : y = z := le_antisymm (le_of_not_lt hzy) (le_of_not_lt hyz)
              rw [if_pos (hyz' ▸ hxy)]
        · rw [if_neg hxy] at hab
          by_cases hyx : y < x
          · rw [if_pos hyx] at hab; exact absurd hab (by decide)
          · rw [if_neg hyx] at hab
            have hxy' : x = y := le_antisymm (le_of_not_lt hyx) (le_of_not_lt hxy)
            by_cases hyz : y < z
            · rw [if_pos (hxy' ▸ hyz)]
            · rw [if_neg hyz] at hbc
              by_cases hzy : z < y
              · rw [if_pos hzy] at hbc; exact absurd hbc (by decide)
              · rw [if_neg hzy] at hbc
                have hyz' : y = z := le_antisymm (le_of_not_lt hzy) (le_of_not_lt hyz)
                rw [if_neg (by rw [hxy', hyz']; exact lt_irrefl z),
                  if_neg (by rw [hxy', hyz']; exact lt_irrefl z)]
                exact ih bs cs hab hbc

theorem lexLe_total : ∀ a b : List Int, lexLe a b = true ∨ lexLe b a = true := by
  intro a
  induction a with
  | nil => intro b; exact Or.inl rfl
  | cons x as ih =>
    intro b
    cases b with
    | nil => exact Or.inr rfl
    | cons y bs =>
      simp only [lexLe]
      rcases lt_trichotomy x y with h | h | h
      · exact Or.inl (by rw [if_pos h])
      · subst h
        rw [if_neg (lt_irrefl x), if_neg (lt_irrefl x),
          if_neg (lt_irrefl x), if_neg (lt_irrefl x)]
        exact ih bs
      · exact Or.inr (by rw [if_pos h])

theorem lexLe_antisymm : ∀ a b : List Int,
    lexLe a b = true → lexLe b a = true → a = b := by
  intro a
  induction a with
  | nil =>
    intro b _ hba
    cases b with
    | nil => rfl
    | cons y bs => simp [lexLe] at hba
  | cons x as ih =>
    intro b hab hba
    cases b with
    | nil => simp [lexLe] at hab
    | cons y bs =>
      simp only [lexLe] at hab hba
      rcases lt_trichotomy x y with h | h | h
      · rw [if_neg (lt_asymm h), if_pos h] at hba
        exact absurd hba (by decide)
      · subst h
        rw [if_neg (lt_irrefl x), if_neg (lt_irrefl x)] at hab hba
        rw [ih bs hab hba]
      · rw [if_neg (lt_asymm h), if_pos h] at hab
        exact absurd hab (by decide)

/-- A list compares `≤` to any extension of itself. -/
theorem lexLe_append_self : ∀ pp q : List Int, lexLe pp (pp ++ q) = true := by
  intro pp
  induction pp with
  | nil => intro q; rfl
  | cons x ps ih => intro q; simp [lexLe, lt_irrefl, ih]

/-- Two extensions of a common stem compare by the first differing entry. -/
theorem lexLe_append_lt : ∀ (pp : List Int) (x y : Int) (q1 q2 : List Int),
    x < y → lexLe (pp ++ x :: q1) (pp ++ y :: q2) = true := by
  intro pp
  induction pp with
  | nil => intro x y q1 q2 h; simp [lexLe, if_pos h]
  | cons a ps ih => intro x y q1 q2 h; simp [lexLe, lt_irrefl, ih _ _ _ _ h]

theorem ne_append_lt (pp : List Int) (x y : Int) (q1 q2 : List Int) (h : x < y) :
    pp ++ x :: q1 ≠ pp ++ y :: q2 := by
  intro heq
  have := List.append_cancel_left heq
  simp only [List.cons.injEq] at this
  exact absurd this.1 (ne_of_lt h)

theorem ne_append_self (pp : List Int) (q : List Int) (h : q ≠ []) :
    pp ≠ pp ++ q := by
  intro heq
  have := congrArg List.length heq
  rw [List.length_append] at this
  have : q.length = 0 := by omega
  exact h (List.length_eq_zero.mp this)

/-- A sorted list is determined by its multiset of elements once some
permutation of it is strictly sorted. -/
theorem sorted_perm_eq {α : Type} {le : α → α → Prop} :
    ∀ (l1 l2 : List α), l1.Perm l2 → l1.Pairwise le →
      l2.Pairwise (fun a b => le a b ∧ ¬ le b a) → l1 = l2 := by
  intro l1
  induction l1 with
  | nil =>
    intro l2 hp _ _
    exact (hp.symm.eq_nil).symm
  | cons a t ih =>
    intro l2 hp hs1 hs2
    cases l2 with
    | nil => exact absurd hp.eq_nil (by simp)
    | cons b t2 =>
      by_cases hab : a = b
      · subst hab
        rw [ih t2 hp.cons_inv hs1.of_cons hs2.of_cons]
      · exfalso
        have ha2 : a ∈ b :: t2 := hp.subset (List.mem_cons_self a t)
        have hat2 : a ∈ t2 := by
          rcases List.mem_cons.mp ha2 with h | h
          · exact absurd h hab
          · exact h
        have hb1 : b ∈ a :: t := hp.symm.subset (List.mem_cons_self b t2)
        have hbt : b ∈ t := by
          rcases List.mem_cons.mp hb1 with h | h
          · exact absurd h.symm hab
          · exact h
        have h1 : le a b := (List.pairwise_cons.mp hs1).1 b hbt
        have h2 : le b a ∧ ¬ le a b := (List.pairwise_cons.mp hs2).1 a hat2
        exact h2.2 h1


/-- Decomposing `pre ++ [x]` at an arbitrary element: either the element is
`x` itself, or it lies inside `pre`. -/
theorem split_append_singleton {α : Type} :
    ∀ (pre2 pre : List α) (x e2 : α) (post2 : List α),
      pre ++ [x] = pre2 ++ e2 :: post2 →
      (pre2 = pre ∧ e2 = x ∧ post2 = []) ∨
      (∃ mid, pre = pre2 ++ e2 :: mid ∧ post2 = mid ++ [x]) := by
  intro pre2
  induction pre2 with
  | nil =>
    intro pre x e2 post2 h
    cases pre with
    | nil =>
      simp only [List.nil_append] at h
      simp only [List.cons.injEq] at h
      exact Or.inl ⟨rfl, h.1.symm, h.2.symm⟩
    | cons a pre' =>
      simp only [List.cons_append, List.nil_append, List.cons.injEq] at h
      exact Or.inr ⟨pre', by rw [h.1]; simp, h.2.symm⟩
  | cons b pre2' ih =>
    intro pre x e2 post2 h
    cases pre with
    | nil =>
      simp only [List.nil_append, List.cons_append, List.cons.injEq] at h
      exact absurd h.2.symm (List.append_ne_nil_of_right_ne_nil _ (by simp))
    | cons a pre' =>
      simp only [List.cons_append, List.cons.injEq] at h
      obtain ⟨rfl, h2⟩ := h
      rcases ih pre' x e2 post2 h2 with ⟨h3, h4, h5⟩ | ⟨mid, h3, h4⟩
      · exact Or.inl ⟨by rw [h3], h4, h5⟩
      · exact Or.inr ⟨mid, by rw [h3]; simp, h4⟩

/-- From the parents-before-children scan: at any decomposition, the parent
id of the split entry was already seen or belongs to an earlier entry. -/
theorem parentsSeenB_split :
    ∀ (l : List BulkEntry) (seen : List Int),
      parentsSeenB seen l = true →
      ∀ pre e post, l = pre ++ e :: post → ∀ p, e.parentId = some p →
        p ∈ seen ∨ p ∈ pre.map BulkEntry.id := by
  intro l
  induction l with
  | nil =>
    intro seen _ pre e post h
    exfalso
    cases pre <;> simp at h
  | cons a rest ih =>
    intro seen hb pre e post heq p hp
    rw [parentsSeenB] at hb
    simp only [Bool.and_eq_true] at hb
    obtain ⟨h1, h2⟩ := hb
    cases pre with
    | nil =>
      simp only [List.nil_append, List.cons.injEq] at heq
      obtain ⟨rfl, rfl⟩ := heq
      rw [hp] at h1
      exact Or.inl (by simpa using h1)
    | cons b pre' =>
      simp only [List.cons_append, List.cons.injEq] at heq
      obtain ⟨rfl, heq2⟩ := heq
      rcases ih (a.id :: seen) h2 pre' e post heq2 p hp with h | h
      · rcases List.mem_cons.mp h with h' | h'
        · exact Or.inr (by rw [h']; simp)
        · exact Or.inl h'
      · exact Or.inr (by simp only [List.map_cons, List.mem_cons]; exact Or.inr h)


/-- The position drawn from the counters is the gap position of the entry's
sibling-count prefix. -/
theorem pos_eq_posSpec (pre : List BulkEntry) (pid : Option Int)
    (counters : Option Int → Option Int)
    (hc : ∀ q, counters q =
      if pre.countP (fun e => decide (e.parentId = q)) = 0 then none
      else some (1000 * (pre.countP (fun e => decide (e.parentId = q)) : Int))) :
    (match counters pid with | none => (1000 : Int) | some v => v + 1000) =
      posSpec pre pid := by
  rw [hc pid]
  by_cases hcnt : pre.countP (fun e => decide (e.parentId = pid)) = 0
  · rw [if_pos hcnt]
    rw [posSpec, hcnt]
    simp
  · rw [if_neg hcnt]
    simp only [posSpec]
    ring

/-- The counters invariant survives one step of the loop. -/
theorem counters_snoc (pre : List BulkEntry) (e : BulkEntry)
    (counters : Option Int → Option Int) (pos : Int)
    (hc : ∀ q, counters q =
      if pre.countP (fun x => decide (x.parentId = q)) = 0 then none
      else some (1000 * (pre.countP (fun x => decide (x.parentId = q)) : Int)))
    (hpos : pos = posSpec pre e.parentId) :
    ∀ pid, (fun k => if k = e.parentId then some pos else counters k) pid =
      if (pre ++ [e]).countP (fun x => decide (x.parentId = pid)) = 0 then none
      else some (1000 * ((pre ++ [e]).countP (fun x => decide (x.parentId = pid)) : Int)) := by
  intro pid
  rw [List.countP_append]
  by_cases hk : pid = e.parentId
  · subst hk
    have h1 : List.countP (fun x => decide (x.parentId = e.parentId)) [e] = 1 := by
      simp [List.countP_cons]
    rw [h1]
    show (if e.parentId = e.parentId then some pos else counters e.parentId) = _
    rw [if_pos rfl, if_neg (by omega), hpos]
    simp only [posSpec]
    congr 1
  · simp only [if_neg hk]
    have h0 : List.countP (fun x => decide (x.parentId = pid)) [e] = 0 := by
      have hd : (decide (e.parentId = pid)) = false := decide_eq_false (fun h => hk h.symm)
      simp [List.countP_cons, hd]
    rw [h0, Nat.add_zero, hc pid]

/-- The info-map characterisation survives one step of the loop. -/
theorem infoSpec_snoc
    (pre : List BulkEntry) (e : BulkEntry) (info0 : Int → Option NodeTreeInfo)
    (hne : e.id ∉ pre.map BulkEntry.id)
    (hkeys : ∀ x, (info0 x).isSome = true ↔ x ∈ pre.map BulkEntry.id)
    (hspec : InfoSpec pre info0)
    (newv : NodeTreeInfo)
    (hroot : e.parentId = none → newv = rootInfoSpec pre e)
    (hchild : ∀ p, e.parentId = some p →
      ∃ ip, info0 p = some ip ∧ newv = childInfoSpec pre p ip e) :
    InfoSpec (pre ++ [e]) (fun k => if k = e.id then some newv else info0 k) := by
  intro pre2 e2 post2 heq
  rcases split_append_singleton pre2 pre e e2 post2 heq with ⟨h1, h2, h3⟩ | ⟨mid, h1, h2⟩
  · subst h1; subst h2
    constructor
    · intro hpe
      simp [hroot hpe]
    · intro p hpe
      obtain ⟨ip, hip, hnv⟩ := hchild p hpe
      have hpmem : p ∈ pre2.map BulkEntry.id := (hkeys p).mp (by rw [hip]; rfl)
      have hpne : ¬ (p = e2.id) := fun h => hne (h ▸ hpmem)
      refine ⟨ip, ?_, ?_⟩
      · simp only [if_neg hpne]
        exact hip
      · simp [hnv]
  · have hsub := hspec pre2 e2 mid h1
    have he2mem : e2.id ∈ pre.map BulkEntry.id := by
      rw [h1]; simp
    have he2ne : ¬ (e2.id = e.id) := fun h => hne (h ▸ he2mem)
    constructor
    · intro hpe2
      simp only [if_neg he2ne]
      exact hsub.1 hpe2
    · intro p hpe2
      obtain ⟨ip, hip, hval⟩ := hsub.2 p hpe2
      have hpmem : p ∈ pre.map BulkEntry.id := (hkeys p).mp (by rw [hip]; rfl)
      have hpne : ¬ (p = e.id) := fun h => hne (h ▸ hpmem)
      exact ⟨ip, by simp only [if_neg hpne]; exact hip,
        by simp only [if_neg he2ne]; exact hval⟩


/-- Invariant of the `build_paths_for_bulk_insert` loop: after a successful
run over `post`, starting from the state reached on `pre`, the final map is
defined exactly on the batch ids, agrees with the initial map on the ids of
`pre`, and satisfies the per-entry characterisation. -/
theorem buildPathsAux_spec :
    ∀ (post pre : List BulkEntry) (seen : List Int)
      (counters : Option Int → Option Int) (info0 infoF : Int → Option NodeTreeInfo),
      ((pre ++ post).map BulkEntry.id).Nodup →
      parentsSeenB seen post = true →
      (∀ x, x ∈ seen ↔ x ∈ pre.map BulkEntry.id) →
      (∀ q, counters q =
        if pre.countP (fun x => decide (x.parentId = q)) = 0 then none
        else some (1000 * (pre.countP (fun x => decide (x.parentId = q)) : Int))) →
      (∀ x, (info0 x).isSome = true ↔ x ∈ pre.map BulkEntry.id) →
      InfoSpec pre info0 →
      buildPathsAux post counters info0 = .ok infoF →
      (∀ x, (infoF x).isSome = true ↔ x ∈ (pre ++ post).map BulkEntry.id) ∧
      (∀ x, x ∈ pre.map BulkEntry.id → infoF x = info0 x) ∧
      InfoSpec (pre ++ post) infoF := by
  intro post
  induction post with
  | nil =>
    intro pre seen counters info0 infoF hnd hpb hseen hc hkeys hspec h
    rw [buildPathsAux] at h
    cases h
    refine ⟨?_, ?_, ?_⟩
    · intro x; rw [List.append_nil]; exact hkeys x
    · intro x _; rfl
    · rw [List.append_nil]; exact hspec
  | cons e rest ih =>
    intro pre seen counters info0 infoF hnd hpb hseen hc hkeys hspec h
    rw [parentsSeenB] at hpb
    simp only [Bool.and_eq_true] at hpb
    obtain ⟨hp1, hp2⟩ := hpb
    have hne : e.id ∉ pre.map BulkEntry.id := by
      intro hmem
      rw [List.map_append, List.nodup_append] at hnd
      exact (hnd.2.2 hmem) (by simp)
    have hpos := pos_eq_posSpec pre e.parentId counters hc
    simp only [buildPathsAux] at h
    split at h
    · cases h
    · split at h
      · cases h
      · obtain ⟨hkF, hstab, hspF⟩ :=
          ih (pre ++ [e]) (e.id :: seen) _ _ infoF
            (by rw [List.append_assoc, List.singleton_append]; exact hnd)
            hp2
            (by
              intro x
              simp only [List.mem_cons, hseen x, List.map_append, List.mem_append,
                List.map_cons, List.map_nil, List.mem_singleton]
              tauto)
            (counters_snoc pre e counters _ hc hpos)
            (by
              intro x
              by_cases hx : x = e.id
              · simp [hx]
              · simp [hx, hkeys x])
            (infoSpec_snoc pre e info0 hne hkeys hspec _
              (by
                intro hpe
                have hpos2 := hpos
                rw [hpe] at hpos2
                simp only [hpe]
                rw [rootInfoSpec, ← hpos2])
              (by
                intro p hpe
                have hp1' : p ∈ seen := by
                  rw [hpe] at hp1
                  simpa using hp1
                have hpmem : p ∈ pre.map BulkEntry.id := (hseen p).mp hp1'
                obtain ⟨ip, hip⟩ := Option.isSome_iff_exists.mp ((hkeys p).mpr hpmem)
                refine ⟨ip, hip, ?_⟩
                have hpos2 := hpos
                rw [hpe] at hpos2
                simp only [hpe, hip]
                rw [childInfoSpec, ← hpos2]))
            h
        have hass : (pre ++ [e]) ++ rest = pre ++ e :: rest := by simp
        refine ⟨?_, ?_, ?_⟩
        · intro x; rw [← hass]; exact hkF x
        · intro x hx
          have hxe : x ∈ (pre ++ [e]).map BulkEntry.id := by
            rw [List.map_append]; exact List.mem_append_left _ hx
          have hxne : ¬ (x = e.id) := fun hh => hne (hh ▸ hx)
          rw [hstab x hxe]
          simp [hxne]
        · rw [← hass]; exact hspF


/-- Characterisation of a successful `build_paths_for_bulk_insert` under the
parents-before-children precondition. -/
theorem build_paths_spec (es : List BulkEntry) (info : Int → Option NodeTreeInfo)
    (hpre : Pre es) (h : build_paths_for_bulk_insert es = .ok info) :
    (∀ x, (info x).isSome = true ↔ x ∈ es.map BulkEntry.id) ∧ InfoSpec es info := by
  rw [build_paths_for_bulk_insert] at h
  have hmain := buildPathsAux_spec es [] [] (fun _ => none) (fun _ => none) info
    (by simpa using hpre.2) hpre.1 (by simp) (by intro q; simp)
    (by intro x; simp) (by intro pre e post heq; exfalso; cases pre <;> simp at heq) h
  exact ⟨hmain.1, hmain.2.2⟩

theorem filterMap_info_eq_map (org : String) (now : Nat) (info : Int → Option NodeTreeInfo) :
    ∀ (l : List BulkEntry), (∀ e ∈ l, (info e.id).isSome = true) →
      l.filterMap (fun e => (info e.id).map (mkBulkRow org now e)) =
        l.map (rowOfI org now info) := by
  intro l
  induction l with
  | nil => intro _; rfl
  | cons e t ihl =>
    intro hall
    obtain ⟨ti, hti⟩ := Option.isSome_iff_exists.mp (hall e (by simp))
    rw [List.filterMap_cons, List.map_cons, hti]
    simp only [Option.map_some']
    rw [ihl (fun x hx => hall x (by simp [hx]))]
    congr 1
    rw [rowOfI, hti]

/-- A successful bulk load into the empty table produces exactly one row per
entry, the row attached by the analysis. -/
theorem bulk_state_eq (es : List BulkEntry) (org : String) (now : Nat)
    (info : Int → Option NodeTreeInfo) (n : Nat) (st : List Row)
    (hinfo : build_paths_for_bulk_insert es = .ok info)
    (hkeys : ∀ x, (info x).isSome = true ↔ x ∈ es.map BulkEntry.id)
    (hok : bulk_insert_adjacency [] org es now = .ok (n, st)) :
    st = es.map (rowOfI org now info) ∧ n = es.length := by
  rw [bulk_insert_adjacency] at hok
  by_cases hemp : es.isEmpty
  · rw [if_pos hemp] at hok
    cases hok
    have hnil : es = [] := List.isEmpty_iff.mp hemp
    subst hnil
    exact ⟨rfl, rfl⟩
  · rw [if_neg hemp] at hok
    simp only [hinfo] at hok
    rw [filterMap_info_eq_map org now info es
      (fun e he => (hkeys e.id).mpr (List.mem_map_of_mem _ he))] at hok
    cases hok
    exact ⟨by simp, by simp⟩

/-- Gap positions grow strictly along the batch within one sibling group. -/
theorem posSpec_lt (l mid : List BulkEntry) (e : BulkEntry) (pid : Option Int)
    (hpe : e.parentId = pid) :
    posSpec l pid < posSpec (l ++ e :: mid) pid := by
  simp only [posSpec, List.countP_append, List.countP_cons]
  rw [show (decide (e.parentId = pid)) = true from by simp [hpe]]
  simp only [if_true, reduceIte]
  push_cast
  omega

theorem sufAfter_of_split : ∀ (pre : List BulkEntry) (e : BulkEntry) (post : List BulkEntry),
    ((pre ++ e :: post).map BulkEntry.id).Nodup → sufAfter e.id (pre ++ e :: post) = post := by
  intro pre
  induction pre with
  | nil =>
    intro e post _
    simp [sufAfter]
  | cons a pre2 ihp =>
    intro e post hnd
    simp only [List.map_cons, List.nodup_cons, List.cons_append] at hnd ⊢
    have hane : ¬ (a.id = e.id) := by
      intro hh
      exact hnd.1 (by rw [hh]; simp)
    rw [sufAfter, if_neg hane]
    exact ihp e post hnd.2

theorem sufAfter_suffix : ∀ (x : Int) (l : List BulkEntry), sufAfter x l <:+ l := by
  intro x l
  induction l with
  | nil => exact List.suffix_refl _
  | cons e rest ihl =>
    rw [sufAfter]
    by_cases he : e.id = x
    · rw [if_pos he]
      exact List.suffix_cons e rest
    · rw [if_neg he]
      exact ihl.trans (List.suffix_cons e rest)

/-- The trees of a built forest are exactly the matching entries of the pool,
in order, each carrying the children built from the batch suffix after it. -/
theorem abuild_toList (rm : BulkEntry → Row) (es : List BulkEntry)
    (hnd : (es.map BulkEntry.id).Nodup) :
    ∀ (pool : List BulkEntry) (pid : Option Int), pool <:+ es →
      toListF (abuild rm pool pid) =
        (pool.filter (fun e => decide (e.parentId = pid))).map
          (fun e => ATree.node (rm e) (abuild rm (sufAfter e.id es) (some e.id))) := by
  intro pool
  induction pool with
  | nil => intro pid _; rfl
  | cons e rest ihp =>
    intro pid hsuf
    have hrest : rest <:+ es := (List.suffix_cons e rest).trans hsuf
    obtain ⟨l, hl⟩ := hsuf
    have hres : sufAfter e.id es = rest := by
      rw [← hl]
      exact sufAfter_of_split l e rest (by rw [hl]; exact hnd)
    by_cases hpe : e.parentId = pid
    · rw [abuild, if_pos hpe, toListF, List.filter_cons]
      rw [show (decide (e.parentId = pid)) = true from by simp [hpe]]
      simp only [if_true, List.map_cons]
      rw [hres, ihp pid hrest]
    · rw [abuild, if_neg hpe, List.filter_cons]
      rw [show (decide (e.parentId = pid)) = false from by simp [hpe]]
      simp only [Bool.false_eq_true, if_false]
      exact ihp pid hrest

theorem rowOfI_id (org : String) (now : Nat) (info : Int → Option NodeTreeInfo)
    (e : BulkEntry) : (rowOfI org now info e).id = e.id := by
  rw [rowOfI]; cases info e.id <;> rfl

theorem rowOfI_parentId (org : String) (now : Nat) (info : Int → Option NodeTreeInfo)
    (e : BulkEntry) : (rowOfI org now info e).parentId = e.parentId := by
  rw [rowOfI]; cases info e.id <;> rfl

theorem rowOfI_orgId (org : String) (now : Nat) (info : Int → Option NodeTreeInfo)
    (e : BulkEntry) : (rowOfI org now info e).orgId = org := by
  rw [rowOfI]; cases info e.id <;> rfl

/-- The row of a root entry. -/
theorem rowOf_root_eq (es : List BulkEntry) (org : String) (now : Nat)
    (info : Int → Option NodeTreeInfo) (hg : GoodInfo es info)
    (pre : List BulkEntry) (e : BulkEntry) (post : List BulkEntry)
    (heq : es = pre ++ e :: post) (hpe : e.parentId = none) :
    rowOfI org now info e = mkBulkRow org now e (rootInfoSpec pre e) := by
  have hie := (hg.2 pre e post heq).1 hpe
  rw [rowOfI, hie]

/-- The row of a child entry, in terms of its parent's info. -/
theorem rowOf_child_eq (es : List BulkEntry) (org : String) (now : Nat)
    (info : Int → Option NodeTreeInfo) (hg : GoodInfo es info)
    (pre : List BulkEntry) (e : BulkEntry) (post : List BulkEntry)
    (heq : es = pre ++ e :: post) (p : Int) (hpe : e.parentId = some p) :
    ∃ ip, info p = some ip ∧
      rowOfI org now info e = mkBulkRow org now e (childInfoSpec pre p ip e) := by
  obtain ⟨ip, hip, hie⟩ := (hg.2 pre e post heq).2 p hpe
  exact ⟨ip, hip, by rw [rowOfI, hie]⟩

theorem rowOf_pos_eq (es : List BulkEntry) (org : String) (now : Nat)
    (info : Int → Option NodeTreeInfo) (hg : GoodInfo es info)
    (pre : List BulkEntry) (e : BulkEntry) (post : List BulkEntry)
    (heq : es = pre ++ e :: post) :
    (rowOfI org now info e).pos = posSpec pre e.parentId := by
  cases hpe : e.parentId with
  | none => rw [rowOf_root_eq es org now info hg pre e post heq hpe]; rfl
  | some p =>
    obtain ⟨ip, _, hrw⟩ := rowOf_child_eq es org now info hg pre e post heq p hpe
    rw [hrw]; rfl

/-- Every tree of a forest built from a later batch suffix has a position
strictly above the gap position drawn at the earlier prefix. -/
theorem abuild_firstPos (es : List BulkEntry) (org : String) (now : Nat)
    (info : Int → Option NodeTreeInfo) (hg : GoodInfo es info)
    (l : List BulkEntry) (e : BulkEntry) (pid : Option Int) (hpe : e.parentId = pid) :
    ∀ (rest mid : List BulkEntry), l ++ e :: mid ++ rest = es →
      firstPosGt (posSpec l pid) (abuild (rowOfI org now info) rest pid) := by
  intro rest
  induction rest with
  | nil => intro mid _; trivial
  | cons e2 rest2 ihr =>
    intro mid heq
    by_cases hp2 : e2.parentId = pid
    · rw [abuild, if_pos hp2]
      show posSpec l pid < (rowOfI org now info e2).pos
      have hsplit : es = (l ++ e :: mid) ++ e2 :: rest2 := by rw [← heq]
      have hpos2 := rowOf_pos_eq es org now info hg (l ++ e :: mid) e2 rest2 hsplit
      rw [hp2] at hpos2
      rw [hpos2]
      exact posSpec_lt l mid e pid hpe
    · rw [abuild, if_neg hp2]
      exact ihr (mid ++ [e2]) (by rw [← heq]; simp)

/-- The forest built below a node is coherent with that node's computed
`path_pos`, depth and root id. -/
theorem abuild_cohF (es : List BulkEntry) (org : String) (now : Nat)
    (info : Int → Option NodeTreeInfo) (hg : GoodInfo es info) :
    ∀ (pool : List BulkEntry) (p : Int) (ip : NodeTreeInfo),
      pool <:+ es → info p = some ip →
      cohF (abuild (rowOfI org now info) pool (some p)) ip.pathPos ip.depth ip.rootId := by
  intro pool
  induction pool with
  | nil => intro p ip _ _; trivial
  | cons e rest ihp =>
    intro p ip hsuf hip
    have hrest : rest <:+ es := (List.suffix_cons e rest).trans hsuf
    obtain ⟨l, hl⟩ := hsuf
    by_cases hpe : e.parentId = some p
    · obtain ⟨ip2, hip2, hie⟩ := (hg.2 l e rest hl.symm).2 p hpe
      have hips : ip2 = ip := Option.some_inj.mp (hip2.symm.trans hip)
      rw [hips] at hie
      have hrw : rowOfI org now info e = mkBulkRow org now e (childInfoSpec l p ip e) := by
        rw [rowOfI, hie]
      rw [abuild, if_pos hpe]
      refine ⟨⟨?_, ?_, ?_, ?_⟩, ?_, ?_⟩
      · rw [hrw]; rfl
      · rw [hrw]; rfl
      · rw [hrw]; rfl
      · have hch := ihp e.id (childInfoSpec l p ip e) hrest hie
        rw [hrw]
        exact hch
      · have hposrw : (rowOfI org now info e).pos = posSpec l (some p) := by rw [hrw]; rfl
        show firstPosGt ((rowOfI org now info e).pos) _
        rw [hposrw]
        exact abuild_firstPos es org now info hg l e (some p) hpe rest [] (by simpa using hl)
      · exact ihp p ip hrest hip
    · rw [abuild, if_neg hpe]
      exact ihp p ip hrest hip

/-- The tree of a root entry is coherent. -/
theorem treeOf_cohT (es : List BulkEntry) (org : String) (now : Nat)
    (info : Int → Option NodeTreeInfo) (hg : GoodInfo es info)
    (pre : List BulkEntry) (e : BulkEntry) (post : List BulkEntry)
    (heq : es = pre ++ e :: post) (hpe : e.parentId = none) :
    cohT (nodeOfE (rowOfI org now info) es e)
      ((rowOfI org now info e).pathPos) 1 e.id := by
  have hie : info e.id = some (rootInfoSpec pre e) := (hg.2 pre e post heq).1 hpe
  have hrw : rowOfI org now info e = mkBulkRow org now e (rootInfoSpec pre e) := by
    rw [rowOfI, hie]
  refine ⟨rfl, ?_, ?_, ?_⟩
  · rw [hrw]; rfl
  · rw [hrw]; rfl
  · have hch := abuild_cohF es org now info hg (sufAfter e.id es) e.id (rootInfoSpec pre e)
      (sufAfter_suffix e.id es) hie
    show cohF _ ((rowOfI org now info e).pathPos) 1 e.id
    rw [hrw]
    exact hch

theorem repClose_succ (n : Nat) : repClose (n + 1) = closeBr ++ repClose n := by
  rw [repClose, repClose, List.replicate_succ, List.flatten_cons]

theorem repClose_comm : ∀ n : Nat, repClose n ++ closeBr = closeBr ++ repClose n := by
  intro n
  induction n with
  | zero => rfl
  | succ n ihn =>
    rw [repClose_succ, List.append_assoc, ihn]

/-- `emitRows` depends on its `LAG` seed only through the first separator. -/
theorem emit_prev_congr (rest : List Row) (p q : Int)
    (h : sepTok (some p) (nextDepth rest) = sepTok (some q) (nextDepth rest)) :
    emitRows (some p) rest = emitRows (some q) rest := by
  cases rest with
  | nil => rfl
  | cons r rs =>
    rw [emitRows, emitRows]
    rw [show nextDepth (r :: rs) = r.depth from rfl] at h
    rw [h]

theorem RestOk_mono (rest : List Row) (d d2 : Int) (hle : d ≤ d2) :
    RestOk rest d → RestOk rest d2 := by
  intro h
  rcases h with h | ⟨h1, h2⟩
  · exact Or.inl h
  · exact Or.inr ⟨h1, le_trans h2 hle⟩

theorem contClose_succ (d : Int) (rest : List Row) (h1 : 1 ≤ d) (h : RestOk rest d) :
    contClose (d + 1) rest = closeBr ++ contClose d rest := by
  cases rest with
  | nil =>
    rw [contClose, contClose]
    rw [show (d + 1 - 1).toNat = (d - 1).toNat + 1 from by omega, repClose_succ]
  | cons r rs =>
    rcases h with h | ⟨hnd1, hnd2⟩
    · exact absurd h (by simp)
    · rw [show nextDepth (r :: rs) = r.depth from rfl] at hnd1 hnd2
      rw [contClose, contClose]
      rw [show (d + 1 - r.depth).toNat = (d - r.depth).toNat + 1 from by omega, repClose_succ]

theorem flattenT_head (t : ATree) (pp : List Int) (d rid : Int) (h : cohT t pp d rid) :
    ∃ r rs, flattenT t = r :: rs ∧ r.depth = d ∧ r.pathPos = pp := by
  cases t with
  | node r f => exact ⟨r, flattenF f, rfl, h.2.1, h.1⟩

mutual

/-- Emitting the rows of one coherent subtree (depth `d` root) followed by
`rest` produces its leading separator, its nested document, the closers owed
down to the next row, and the emission of the rest. -/
theorem emit_T : ∀ (t : ATree) (pp : List Int) (d rid : Int) (rest : List Row) (prev : Option Int),
    cohT t pp d rid → 1 ≤ d → RestOk rest d →
    emitRows prev (flattenT t ++ rest) =
      sepTok prev d ++ renderT t ++ contClose d rest ++ emitRows (some (nextDepth rest)) rest
  | .node r .nil, pp, d, rid, rest, prev => by
    intro hcoh h1 hrest
    obtain ⟨hpp, hd, hrid, hch⟩ := hcoh
    simp only [flattenT, flattenF, List.cons_append, List.nil_append]
    rw [emitRows, hd, renderT, renderF]
    cases rest with
    | nil =>
      rw [show nextDepth ([] : List Row) = 0 from rfl]
      rw [closeTokens, if_neg (by omega), if_pos rfl, contClose]
      rw [show d.toNat = (d - 1).toNat + 1 from by omega, repClose_succ]
      simp [emitRows, List.append_assoc]
    | cons r2 rs =>
      rcases hrest with hE | ⟨hnd1, hnd2⟩
      · exact absurd hE (by simp)
      · have hndr : nextDepth (r2 :: rs) = r2.depth := rfl
        rw [hndr] at hnd1 hnd2
        rw [hndr]
        rw [closeTokens, if_neg (by omega), if_neg (by omega)]
        have hemit : emitRows (some d) (r2 :: rs) = emitRows (some r2.depth) (r2 :: rs) := by
          have := emit_prev_congr (r2 :: rs) d r2.depth
            (by rw [hndr, sepTok, sepTok, if_neg (by omega), if_neg (by omega)])
          exact this
        rw [hemit, contClose]
        by_cases hlt : r2.depth < d
        · rw [if_pos hlt]
          simp [repClose_comm, List.append_assoc]
        · rw [if_neg hlt]
          have hde : r2.depth = d := le_antisymm hnd2 (by omega)
          rw [hde, show ((d : Int) - d).toNat = 0 from by omega]
          simp [repClose, List.append_assoc]
  | .node r (.cons t2 f2), pp, d, rid, rest, prev => by
    intro hcoh h1 hrest
    obtain ⟨hpp, hd, hrid, hch⟩ := hcoh
    obtain ⟨r2, rs2, hfl2, hd2, _⟩ := flattenT_head t2 _ _ _ hch.1
    simp only [flattenT, flattenF, List.cons_append]
    rw [emitRows, hd]
    have hndch : nextDepth ((flattenT t2 ++ flattenF f2) ++ rest) = d + 1 := by
      rw [hfl2]
      simp [nextDepth, hd2]
    rw [show flattenT t2 ++ flattenF f2 ++ rest = (flattenT t2 ++ flattenF f2) ++ rest from by
      simp [List.append_assoc]]
    rw [hndch, closeTokens, if_pos (by omega)]
    have hEF := emit_F t2 f2 pp d rid rest (some d) hch (by omega)
      (RestOk_mono rest d (d + 1) (by omega) hrest)
    rw [show (flattenT t2 ++ flattenF f2) ++ rest = flattenF (.cons t2 f2) ++ rest from by
      rw [flattenF]]
    rw [hEF, sepTok, if_pos (by omega)]
    rw [renderT, contClose_succ d rest h1 hrest]
    simp [List.append_assoc]
termination_by t _ _ _ _ _ => sizeOf t

/-- Emitting the rows of a coherent non-empty sibling forest (children of a
depth-`d` node) followed by `rest`. -/
theorem emit_F : ∀ (t2 : ATree) (f2 : AForest) (pp : List Int) (d rid : Int) (rest : List Row) (prev : Option Int),
    cohF (.cons t2 f2) pp d rid → 0 ≤ d → RestOk rest (d + 1) →
    emitRows prev (flattenF (.cons t2 f2) ++ rest) =
      sepTok prev (d + 1) ++ renderF (.cons t2 f2) ++ contClose (d + 1) rest ++
        emitRows (some (nextDepth rest)) rest
  | t2, .nil, pp, d, rid, rest, prev => by
    intro hcoh h0 hrest
    obtain ⟨ht2, hfp, hf2⟩ := hcoh
    rw [flattenF, flattenF, List.append_nil, renderF]
    exact emit_T t2 (pp ++ [posOfT t2]) (d + 1) rid rest prev ht2 (by omega) hrest
  | t2, .cons t3 f3, pp, d, rid, rest, prev => by
    intro hcoh h0 hrest
    obtain ⟨ht2, hfp, hf2⟩ := hcoh
    obtain ⟨r3, rs3, hfl3, hd3, _⟩ := flattenT_head t3 _ _ _ hf2.1
    have hstep := emit_T t2 (pp ++ [posOfT t2]) (d + 1) rid
      (flattenF (.cons t3 f3) ++ rest) prev ht2 (by omega)
      (by
        refine Or.inr ?_
        rw [flattenF, hfl3]
        simp [nextDepth, hd3]
        omega)
    have hnd3 : nextDepth (flattenF (.cons t3 f3) ++ rest) = d + 1 := by
      rw [flattenF, hfl3]
      simp [nextDepth, hd3]
    have hcc3 : contClose (d + 1) (flattenF (.cons t3 f3) ++ rest) = [] := by
      rw [flattenF, hfl3]
      rw [show (r3 :: rs3) ++ flattenF f3 ++ rest = r3 :: (rs3 ++ flattenF f3 ++ rest) from by
        simp [List.append_assoc]]
      rw [contClose, hd3, show ((d : Int) + 1 - (d + 1)).toNat = 0 from by omega]
      rfl
    have hEF := emit_F t3 f3 pp d rid rest (some (d + 1)) hf2 h0 hrest
    rw [show flattenF (.cons t2 (.cons t3 f3)) ++ rest =
        flattenT t2 ++ (flattenF (.cons t3 f3) ++ rest) from by
      rw [flattenF]
      simp [List.append_assoc]]
    rw [hstep, hnd3, hcc3, hEF]
    rw [show sepTok (some (d + 1)) (d + 1) = [','] from by
      rw [sepTok, if_neg (by omega)]]
    rw [show renderF (.cons t2 (.cons t3 f3)) = renderT t2 ++ ',' :: renderF (.cons t3 f3) from by
      rw [renderF]]
    simp [List.append_assoc]
termination_by t2 f2 _ _ _ _ _ => sizeOf t2 + sizeOf f2

end

mutual

/-- The rows of a coherent tree are strictly increasing in `path_pos`, all
extend the tree's stem, and all carry its root id. -/
theorem coh_flatten_T : ∀ (t : ATree) (pp : List Int) (d rid : Int), cohT t pp d rid →
    (flattenT t).Pairwise rowLexLt ∧
    ∀ r ∈ flattenT t, (∃ q, r.pathPos = pp ++ q) ∧ r.rootId = rid
  | .node r f, pp, d, rid => by
    intro h
    obtain ⟨h1, h2, h3, h4⟩ := h
    have hf := coh_flatten_F f pp d rid h4
    constructor
    · rw [flattenT, List.pairwise_cons]
      constructor
      · intro r2 hr2
        obtain ⟨⟨x, q, hx, _⟩, _⟩ := hf.2 r2 hr2
        constructor
        · rw [h1, hx]
          exact lexLe_append_self pp (x :: q)
        · rw [h1, hx]
          exact ne_append_self pp (x :: q) (by simp)
      · exact hf.1
    · intro r2 hr2
      rw [flattenT] at hr2
      rcases List.mem_cons.mp hr2 with h' | h'
      · subst h'
        exact ⟨⟨[], by rw [List.append_nil]; exact h1⟩, h3⟩
      · obtain ⟨⟨x, q, hx, _⟩, hrid2⟩ := hf.2 r2 h'
        exact ⟨⟨x :: q, hx⟩, hrid2⟩
termination_by t _ _ _ => sizeOf t

/-- The rows of a coherent forest are strictly increasing in `path_pos`,
extend the stem by a position dominating every bound below the first
sibling, and carry the root id. -/
theorem coh_flatten_F : ∀ (f : AForest) (pp : List Int) (d rid : Int), cohF f pp d rid →
    (flattenF f).Pairwise rowLexLt ∧
    ∀ r ∈ flattenF f, (∃ x q, r.pathPos = pp ++ x :: q ∧
      ∀ b, firstPosGt b f → b < x) ∧ r.rootId = rid
  | .nil, pp, d, rid => by
    intro _
    constructor
    · exact List.Pairwise.nil
    · intro r hr
      simp [flattenF] at hr
  | .cons t f2, pp, d, rid => by
    intro h
    obtain ⟨ht, hfp, hf2⟩ := h
    have hT := coh_flatten_T t (pp ++ [posOfT t]) (d + 1) rid ht
    have hF := coh_flatten_F f2 pp d rid hf2
    have hext : ∀ r ∈ flattenT t, ∃ q, r.pathPos = pp ++ posOfT t :: q := by
      intro r hr
      obtain ⟨⟨q, hq⟩, _⟩ := hT.2 r hr
      exact ⟨q, by rw [hq, List.append_assoc, List.singleton_append]⟩
    constructor
    · rw [flattenF, List.pairwise_append]
      refine ⟨hT.1, hF.1, ?_⟩
      intro r1 hr1 r2 hr2
      obtain ⟨q1, hq1⟩ := hext r1 hr1
      obtain ⟨⟨x, q2, hx, hb⟩, _⟩ := hF.2 r2 hr2
      have hxlt : posOfT t < x := hb (posOfT t) hfp
      constructor
      · rw [hq1, hx]
        exact lexLe_append_lt pp (posOfT t) x q1 q2 hxlt
      · rw [hq1, hx]
        exact ne_append_lt pp (posOfT t) x q1 q2 hxlt
    · intro r hr
      rw [flattenF] at hr
      rcases List.mem_append.mp hr with h' | h'
      · obtain ⟨q, hq⟩ := hext r h'
        refine ⟨⟨posOfT t, q, hq, ?_⟩, (hT.2 r h').2⟩
        intro b hbf
        cases t with
        | node rt ft => exact hbf
      · obtain ⟨⟨x, q2, hx, hb⟩, hrid2⟩ := hF.2 r h'
        refine ⟨⟨x, q2, hx, ?_⟩, hrid2⟩
        intro b hbf
        have hblt : b < posOfT t := by
          cases t with
          | node rt ft => exact hbf
        exact lt_trans hblt (hb (posOfT t) hfp)
termination_by f _ _ _ => sizeOf f

end

theorem pairwise_nodup_rows (l : List Row) (h : l.Pairwise rowLexLt) : l.Nodup :=
  h.imp (fun hab hEq => hab.2 (by rw [hEq]))

theorem flattenF_toList : ∀ (f : AForest), flattenF f = (toListF f).flatMap flattenT
  | .nil => rfl
  | .cons t f => by rw [flattenF, toListF, List.flatMap_cons, flattenF_toList f]

theorem mem_toListF_flatten (f : AForest) (t : ATree) (ht : t ∈ toListF f)
    (r : Row) (hr : r ∈ flattenT t) : r ∈ flattenF f := by
  rw [flattenF_toList]
  exact List.mem_flatMap.mpr ⟨t, ht, hr⟩

theorem renderF_eq_join : ∀ (f : AForest), renderF f = joinComma ((toListF f).map renderT)
  | .nil => rfl
  | .cons t .nil => by
    rw [renderF, toListF, toListF, List.map_cons, List.map_nil, joinComma]
  | .cons t (.cons t2 f) => by
    rw [renderF, renderF_eq_join (.cons t2 f)]
    rw [show toListF (.cons t (.cons t2 f)) = t :: t2 :: toListF f from rfl]
    rw [show toListF (.cons t2 f) = t2 :: toListF f from rfl]
    rw [List.map_cons, List.map_cons, List.map_cons]
    rw [show joinComma (renderT t :: renderT t2 :: (toListF f).map renderT) =
      renderT t ++ ',' :: joinComma (renderT t2 :: (toListF f).map renderT) from rfl]

/-- Every row of a built forest is the row of some pool entry. -/
theorem flattenF_abuild_sub (rm : BulkEntry → Row) :
    ∀ (pool : List BulkEntry) (pid : Option Int) (r : Row),
      r ∈ flattenF (abuild rm pool pid) → ∃ e ∈ pool, r = rm e := by
  intro pool
  induction pool with
  | nil => intro pid r hr; simp [abuild, flattenF] at hr
  | cons e rest ihp =>
    intro pid r hr
    by_cases hpe : e.parentId = pid
    · rw [abuild, if_pos hpe, flattenF, flattenT] at hr
      rcases List.mem_append.mp hr with h | h
      · rcases List.mem_cons.mp h with h' | h'
        · exact ⟨e, by simp, h'⟩
        · obtain ⟨e2, he2, hr2⟩ := ihp (some e.id) r h'
          exact ⟨e2, by simp [he2], hr2⟩
      · obtain ⟨e2, he2, hr2⟩ := ihp pid r h
        exact ⟨e2, by simp [he2], hr2⟩
    · rw [abuild, if_neg hpe] at hr
      obtain ⟨e2, he2, hr2⟩ := ihp pid r hr
      exact ⟨e2, by simp [he2], hr2⟩

theorem rowOf_labelJson (es : List BulkEntry) (org : String) (now : Nat)
    (info : Int → Option NodeTreeInfo) (hg : GoodInfo es info) :
    ∀ e ∈ es, (rowOfI org now info e).labelJson = encodeJsonString e.label := by
  intro e he
  obtain ⟨pre, post, heq⟩ := List.append_of_mem he
  cases hpe : e.parentId with
  | none => rw [rowOf_root_eq es org now info hg pre e post heq hpe]; rfl
  | some p =>
    obtain ⟨ip, _, hrw⟩ := rowOf_child_eq es org now info hg pre e post heq p hpe
    rw [hrw]; rfl

theorem sufAfter_len_lt (es pool : List BulkEntry) (e : BulkEntry)
    (hnd : (es.map BulkEntry.id).Nodup) (hsuf : pool <:+ es) (he : e ∈ pool) :
    (sufAfter e.id es).length < pool.length := by
  obtain ⟨mid, post, hp⟩ := List.append_of_mem he
  obtain ⟨l, hl⟩ := hsuf
  have hes : es = (l ++ mid) ++ e :: post := by rw [← hl, hp]; simp
  have hsa : sufAfter e.id es = post := by
    rw [hes]
    exact sufAfter_of_split (l ++ mid) e post (by rw [← hes]; exact hnd)
  rw [hsa, hp]
  simp only [List.length_append, List.length_cons]
  omega

/-- The canonical rendering of a built forest only reads each row's JSON
header (id and label), so two row assignments agreeing on headers render the
same document. -/
theorem render_abuild_cong (rm1 rm2 : BulkEntry → Row) (es : List BulkEntry)
    (hnd : (es.map BulkEntry.id).Nodup)
    (hhdr : ∀ e ∈ es, jsonHeader (rm1 e) = jsonHeader (rm2 e)) :
    ∀ (n : Nat) (pool : List BulkEntry) (pid : Option Int), pool.length ≤ n → pool <:+ es →
      renderF (abuild rm1 pool pid) = renderF (abuild rm2 pool pid) := by
  intro n
  induction n with
  | zero =>
    intro pool pid hlen _
    have hnil : pool = [] := List.length_eq_zero.mp (by omega)
    subst hnil
    rfl
  | succ n ihn =>
    intro pool pid hlen hsuf
    rw [renderF_eq_join, renderF_eq_join,
      abuild_toList rm1 es hnd pool pid hsuf, abuild_toList rm2 es hnd pool pid hsuf]
    congr 1
    rw [List.map_map, List.map_map]
    apply List.map_congr_left
    intro e he
    have hepool : e ∈ pool := List.mem_of_mem_filter he
    have hees : e ∈ es := hsuf.subset hepool
    simp only [Function.comp_apply]
    rw [renderT, renderT, hhdr e hees,
      ihn (sufAfter e.id es) (some e.id)
        (by have := sufAfter_len_lt es pool e hnd hsuf hepool; omega)
        (sufAfter_suffix e.id es)]

/-- Completeness: every batch entry whose computed root id is `re.id` has its
row inside the rendered tree of the root entry `re`. -/
theorem flatten_complete (es : List BulkEntry) (org : String) (now : Nat)
    (info : Int → Option NodeTreeInfo) (hpre : Pre es) (hg : GoodInfo es info) :
    ∀ (n : Nat) (pre : List BulkEntry) (e : BulkEntry) (post : List BulkEntry),
      pre.length ≤ n → es = pre ++ e :: post →
      ∀ (pre0 : List BulkEntry) (re : BulkEntry) (post0 : List BulkEntry),
        es = pre0 ++ re :: post0 → re.parentId = none →
        (rowOfI org now info e).rootId = re.id →
        ∀ r ∈ flattenT (nodeOfE (rowOfI org now info) es e),
          r ∈ flattenT (nodeOfE (rowOfI org now info) es re) := by
  intro n
  induction n with
  | zero =>
    intro pre e post hlen heq pre0 re post0 heq0 hre hrid r hr
    have hprenil : pre = [] := List.length_eq_zero.mp (by omega)
    subst hprenil
    cases hpe : e.parentId with
    | none =>
      have hrootid : (rowOfI org now info e).rootId = e.id := by
        rw [rowOf_root_eq es org now info hg [] e post heq hpe]; rfl
      have heid : e.id = re.id := by rw [← hrootid, hrid]
      have hee : e = re := List.inj_on_of_nodup_map hpre.2
        (by rw [heq]; simp) (by rw [heq0]; simp) heid
      rw [← hee]
      exact hr
    | some p =>
      exfalso
      rcases parentsSeenB_split es [] hpre.1 [] e post heq p hpe with h | h <;> simp at h
  | succ n ihn =>
    intro pre e post hlen heq pre0 re post0 heq0 hre hrid r hr
    cases hpe : e.parentId with
    | none =>
      have hrootid : (rowOfI org now info e).rootId = e.id := by
        rw [rowOf_root_eq es org now info hg pre e post heq hpe]; rfl
      have heid : e.id = re.id := by rw [← hrootid, hrid]
      have hee : e = re := List.inj_on_of_nodup_map hpre.2
        (by rw [heq]; simp) (by rw [heq0]; simp) heid
      rw [← hee]
      exact hr
    | some p =>
      have hp := parentsSeenB_split es [] hpre.1 pre e post heq p hpe
      have hpmem : p ∈ pre.map BulkEntry.id := by
        rcases hp with h | h
        · simp at h
        · exact h
      obtain ⟨ep, hepmem, hepid⟩ := List.mem_map.mp hpmem
      obtain ⟨pre2, mid, hpre2⟩ := List.append_of_mem hepmem
      have hsplit2 : es = pre2 ++ ep :: (mid ++ e :: post) := by
        rw [heq, hpre2]; simp
      obtain ⟨ip, hip, hrwE⟩ := rowOf_child_eq es org now info hg pre e post heq p hpe
      have hipep : info ep.id = some ip := by rw [hepid]; exact hip
      have hrwEp : rowOfI org now info ep = mkBulkRow org now ep ip := by
        rw [rowOfI, hipep]
      have hrootEp : (rowOfI org now info ep).rootId = re.id := by
        have hE : (rowOfI org now info e).rootId = ip.rootId := by rw [hrwE]; rfl
        rw [hrwEp, show (mkBulkRow org now ep ip).rootId = ip.rootId from rfl, ← hE, hrid]
      have hlen2 : pre2.length ≤ n := by
        have := congrArg List.length hpre2
        simp only [List.length_append, List.length_cons] at this
        omega
      have hIH := ihn pre2 ep (mid ++ e :: post) hlen2 hsplit2 pre0 re post0 heq0 hre hrootEp
      have hsufEp : sufAfter ep.id es = mid ++ e :: post := by
        rw [hsplit2]
        exact sufAfter_of_split pre2 ep (mid ++ e :: post) (by rw [← hsplit2]; exact hpre.2)
      have hmemT : nodeOfE (rowOfI org now info) es e ∈
          toListF (abuild (rowOfI org now info) (sufAfter ep.id es) (some ep.id)) := by
        rw [abuild_toList (rowOfI org now info) es hpre.2 (sufAfter ep.id es) (some ep.id)
          (sufAfter_suffix ep.id es), hsufEp]
        apply List.mem_map.mpr
        refine ⟨e, ?_, rfl⟩
        apply List.mem_filter.mpr
        exact ⟨by simp, by simp [hpe, hepid]⟩
      have hrF : r ∈ flattenF (abuild (rowOfI org now info) (sufAfter ep.id es) (some ep.id)) :=
        mem_toListF_flatten _ _ hmemT r hr
      have hrEp : r ∈ flattenT (nodeOfE (rowOfI org now info) es ep) :=
        List.mem_cons_of_mem _ hrF
      exact hIH r hrEp

theorem filterMap_eq_map_of_some {α β : Type} (f : α → Option β) (g : α → β) :
    ∀ l : List α, (∀ x ∈ l, f x = some (g x)) → l.filterMap f = l.map g := by
  intro l
  induction l with
  | nil => intro _; rfl
  | cons a t ih =>
    intro h
    rw [List.filterMap_cons, h a (by simp), List.map_cons, ih (fun x hx => h x (by simp [hx]))]

/-- Sorting the image of a list commutes with sorting the list, when the
image order is total and transitive and the sorted image is strictly
increasing. -/
theorem insertionSort_map_of_key {α β : Type} (leA : α → α → Prop) (leB : β → β → Prop)
    [DecidableRel leA] [DecidableRel leB]
    (F : α → β) (l : List α)
    (htotB : ∀ a b, leB a b ∨ leB b a) (htransB : ∀ a b c, leB a b → leB b c → leB a c)
    (hsorted : (l.insertionSort leA).Pairwise (fun a b => leB (F a) (F b) ∧ ¬ leB (F b) (F a))) :
    (l.map F).insertionSort leB = (l.insertionSort leA).map F := by
  haveI : IsTotal β leB := ⟨htotB⟩
  haveI : IsTrans β leB := ⟨fun a b c => htransB a b c⟩
  exact @sorted_perm_eq β leB ((l.map F).insertionSort leB) ((l.insertionSort leA).map F)
    ((List.perm_insertionSort leB (l.map F)).trans
      (((List.perm_insertionSort leA l).map F).symm))
    (List.sorted_insertionSort leB (l.map F))
    (List.pairwise_map.mpr hsorted)

/-- The rows the forest query groups under a root are exactly the rows of the
canonical tree of that root, in `path_pos` order. -/
theorem treeRows_eq_flatten (es : List BulkEntry) (org : String) (now : Nat)
    (info : Int → Option NodeTreeInfo) (hpre : Pre es) (hg : GoodInfo es info)
    (pre0 : List BulkEntry) (re : BulkEntry) (post0 : List BulkEntry)
    (heq0 : es = pre0 ++ re :: post0) (hre : re.parentId = none) :
    treeRows (es.map (rowOfI org now info)) org re.id =
      flattenT (nodeOfE (rowOfI org now info) es re) := by
  have hcoh := treeOf_cohT es org now info hg pre0 re post0 heq0 hre
  have hTf := coh_flatten_T _ _ _ _ hcoh
  have hsrc : ∀ r2 ∈ flattenT (nodeOfE (rowOfI org now info) es re),
      ∃ e ∈ es, r2 = rowOfI org now info e := by
    intro r2 hr2
    rcases List.mem_cons.mp hr2 with h' | h'
    · exact ⟨re, by rw [heq0]; simp, h'⟩
    · obtain ⟨e, he, hre2⟩ := flattenF_abuild_sub (rowOfI org now info)
        (sufAfter re.id es) (some re.id) r2 h'
      exact ⟨e, (sufAfter_suffix re.id es).subset he, hre2⟩
  have hmem : ∀ r, r ∈ (es.map (rowOfI org now info)).filter
      (fun r => r.orgId == org && r.rootId == re.id) ↔
      r ∈ flattenT (nodeOfE (rowOfI org now info) es re) := by
    intro r
    constructor
    · intro hrf
      obtain ⟨hrs, hprop⟩ := List.mem_filter.mp hrf
      obtain ⟨e, hemem, hre2⟩ := List.mem_map.mp hrs
      obtain ⟨pre1, post1, heq1⟩ := List.append_of_mem hemem
      simp only [Bool.and_eq_true, beq_iff_eq] at hprop
      subst hre2
      refine flatten_complete es org now info hpre hg pre1.length pre1 e post1
        (le_refl _) heq1 pre0 re post0 heq0 hre hprop.2 _ ?_
      exact List.mem_cons_self _ _
    · intro hrt
      apply List.mem_filter.mpr
      obtain ⟨e, hees, hre2⟩ := hsrc r hrt
      have hridr : r.rootId = re.id := (hTf.2 r hrt).2
      constructor
      · rw [hre2]
        exact List.mem_map_of_mem _ hees
      · simp only [Bool.and_eq_true, beq_iff_eq]
        exact ⟨by rw [hre2, rowOfI_orgId], hridr⟩
  have hndT : (flattenT (nodeOfE (rowOfI org now info) es re)).Nodup :=
    pairwise_nodup_rows _ hTf.1
  have hndF : ((es.map (rowOfI org now info)).filter
      (fun r => r.orgId == org && r.rootId == re.id)).Nodup := by
    apply List.Nodup.filter
    apply List.Nodup.of_map Row.id
    have hmapid : (es.map (rowOfI org now info)).map Row.id = es.map BulkEntry.id := by
      rw [List.map_map]
      apply List.map_congr_left
      intro e _
      simp only [Function.comp_apply, rowOfI_id]
    rw [hmapid]
    exact hpre.2
  have hperm := (List.perm_ext_iff_of_nodup hndF hndT).mpr hmem
  rw [treeRows]
  exact @sorted_perm_eq Row rowLexLeP _ _
    ((List.perm_insertionSort rowLexLeP _).trans hperm)
    (by
      haveI : IsTotal Row rowLexLeP := ⟨fun a b => lexLe_total a.pathPos b.pathPos⟩
      haveI : IsTrans Row rowLexLeP :=
        ⟨fun a b c hab hbc => lexLe_trans a.pathPos b.pathPos c.pathPos hab hbc⟩
      exact List.sorted_insertionSort rowLexLeP _)
    (hTf.1.imp (fun hab =>
      ⟨hab.1, fun hba => hab.2 (lexLe_antisymm _ _ hab.1 hba)⟩))

/-- The forest document of a bulk-loaded batch is its canonical rendering. -/
theorem fetch_forest_eq_canonical (es : List BulkEntry) (org : String) (now : Nat)
    (info : Int → Option NodeTreeInfo) (hpre : Pre es) (hg : GoodInfo es info) :
    fetch_forest_json (es.map (rowOfI org now info)) org = canonicalRender es := by
  haveI htotE : IsTotal BulkEntry entryIdLeP := ⟨fun a b => Int.le_total a.id b.id⟩
  haveI htransE : IsTrans BulkEntry entryIdLeP := ⟨fun a b c h1 h2 => le_trans h1 h2⟩
  have hhdr : ∀ e ∈ es, jsonHeader (rowOfI org now info e) = jsonHeader (crow e) := by
    intro e he
    rw [jsonHeader, jsonHeader, rowOfI_id, rowOf_labelJson es org now info hg e he]
    rfl
  have hrootfilter :
      (es.map (rowOfI org now info)).filter (fun r => r.parentId == none && r.orgId == org) =
      (es.filter (fun e => decide (e.parentId = none))).map (rowOfI org now info) := by
    rw [List.filter_map]
    congr 1
    apply List.filter_congr
    intro e _
    simp only [Function.comp_apply, rowOfI_parentId, rowOfI_orgId]
    cases e.parentId <;> simp
  have hsortE : (((es.filter (fun e => decide (e.parentId = none))).insertionSort
      entryIdLeP)).Pairwise entryIdLeP :=
    List.sorted_insertionSort entryIdLeP _
  have hndE : ((((es.filter (fun e => decide (e.parentId = none))).insertionSort
      entryIdLeP)).map BulkEntry.id).Nodup := by
    have h1 : (((es.filter (fun e => decide (e.parentId = none)))).map BulkEntry.id).Nodup :=
      List.Nodup.sublist ((List.filter_sublist es).map BulkEntry.id) hpre.2
    exact ((List.perm_insertionSort entryIdLeP _).map BulkEntry.id).nodup_iff.mpr h1
  have hdistE : (((es.filter (fun e => decide (e.parentId = none))).insertionSort
      entryIdLeP)).Pairwise (fun a b => BulkEntry.id a ≠ BulkEntry.id b) :=
    List.pairwise_map.mp hndE
  have hclaimA : (((es.filter (fun e => decide (e.parentId = none))).map
        (rowOfI org now info)).insertionSort rowIdLeP) =
      ((es.filter (fun e => decide (e.parentId = none))).insertionSort entryIdLeP).map
        (rowOfI org now info) := by
    apply insertionSort_map_of_key entryIdLeP rowIdLeP
    · intro a b
      rcases Int.le_total a.id b.id with h | h
      · exact Or.inl (by simp [rowIdLeP, rowIdLe, h])
      · exact Or.inr (by simp [rowIdLeP, rowIdLe, h])
    · intro a b c hab hbc
      simp only [rowIdLeP, rowIdLe, decide_eq_true_eq] at hab hbc ⊢
      omega
    · refine (hsortE.and hdistE).imp ?_
      intro a b hab
      constructor
      · simp only [rowIdLeP, rowIdLe, rowOfI_id, decide_eq_true_eq]
        exact hab.1
      · simp only [rowIdLeP, rowIdLe, rowOfI_id, decide_eq_true_eq]
        intro hba
        exact hab.2 (le_antisymm hab.1 hba)
  have hclaimB : (((es.filter (fun e => decide (e.parentId = none))).map
        (nodeOfE crow es)).insertionSort treeIdLeP) =
      ((es.filter (fun e => decide (e.parentId = none))).insertionSort entryIdLeP).map
        (nodeOfE crow es) := by
    apply insertionSort_map_of_key entryIdLeP treeIdLeP
    · intro a b
      rcases Int.le_total (treeRootId a) (treeRootId b) with h | h
      · exact Or.inl (by simp [treeIdLeP, treeIdLe, h])
      · exact Or.inr (by simp [treeIdLeP, treeIdLe, h])
    · intro a b c hab hbc
      simp only [treeIdLeP, treeIdLe, decide_eq_true_eq] at hab hbc ⊢
      omega
    · refine (hsortE.and hdistE).imp ?_
      intro a b hab
      have hida : treeRootId (nodeOfE crow es a) = a.id := rfl
      have hidb : treeRootId (nodeOfE crow es b) = b.id := rfl
      constructor
      · simp only [treeIdLeP, treeIdLe, hida, hidb, decide_eq_true_eq]
        exact hab.1
      · simp only [treeIdLeP, treeIdLe, hida, hidb, decide_eq_true_eq]
        intro hba
        exact hab.2 (le_antisymm hab.1 hba)
  have hrender : ∀ e ∈ es,
      renderT (nodeOfE (rowOfI org now info) es e) = renderT (nodeOfE crow es e) := by
    intro e he
    rw [nodeOfE, nodeOfE, renderT, renderT, hhdr e he,
      render_abuild_cong (rowOfI org now info) crow es hpre.2 hhdr
        (sufAfter e.id es).length (sufAfter e.id es) (some e.id)
        (le_refl _) (sufAfter_suffix e.id es)]
  have hpoint : ∀ e ∈ ((es.filter (fun e => decide (e.parentId = none))).insertionSort
      entryIdLeP),
      (if (treeRows (es.map (rowOfI org now info)) org
          (rowOfI org now info e).id).isEmpty = true then none
        else some (emitRows none (treeRows (es.map (rowOfI org now info)) org
          (rowOfI org now info e).id))) =
      some (renderT (nodeOfE (rowOfI org now info) es e)) := by
    intro e he
    have heroot : e ∈ es.filter (fun e => decide (e.parentId = none)) :=
      (List.perm_insertionSort entryIdLeP _).subset he
    have hees : e ∈ es := List.mem_of_mem_filter heroot
    have hpe : e.parentId = none := by
      have := (List.mem_filter.mp heroot).2
      simpa using this
    obtain ⟨pre1, post1, heq1⟩ := List.append_of_mem hees
    have hTR := treeRows_eq_flatten es org now info hpre hg pre1 e post1 heq1 hpe
    have hcoh := treeOf_cohT es org now info hg pre1 e post1 heq1 hpe
    have hemit := emit_T (nodeOfE (rowOfI org now info) es e)
      ((rowOfI org now info e).pathPos) 1 e.id [] none hcoh (le_refl 1) (Or.inl rfl)
    rw [List.append_nil] at hemit
    have hemit2 : emitRows none (flattenT (nodeOfE (rowOfI org now info) es e)) =
        renderT (nodeOfE (rowOfI org now info) es e) := by
      rw [hemit]
      simp [sepTok, contClose, emitRows, repClose]
    simp only [rowOfI_id, hTR]
    rw [show flattenT (nodeOfE (rowOfI org now info) es e) =
      rowOfI org now info e :: flattenF (abuild (rowOfI org now info)
        (sufAfter e.id es) (some e.id)) from rfl] at hemit2 ⊢
    rw [show (rowOfI org now info e :: flattenF (abuild (rowOfI org now info)
        (sufAfter e.id es) (some e.id))).isEmpty = false from rfl]
    simp only [Bool.false_eq_true, if_false, hemit2]
  simp only [fetch_forest_json, canonicalRender]
  rw [hrootfilter, hclaimA, List.filterMap_map]
  simp only [Function.comp_def]
  rw [filterMap_eq_map_of_some _
    (fun e => renderT (nodeOfE (rowOfI org now info) es e)) _ hpoint]
  rw [abuild_toList crow es hpre.2 es none (List.suffix_refl es)]
  rw [show (fun e => ATree.node (crow e) (abuild crow (sufAfter e.id es) (some e.id))) =
    nodeOfE crow es from rfl]
  rw [hclaimB, List.map_map]
  have hmaps : List.map (fun e => renderT (nodeOfE (rowOfI org now info) es e))
      ((es.filter (fun e => decide (e.parentId = none))).insertionSort entryIdLeP) =
    List.map (renderT ∘ nodeOfE crow es)
      ((es.filter (fun e => decide (e.parentId = none))).insertionSort entryIdLeP) := by
    apply List.map_congr_left
    intro e he
    have hees : e ∈ es :=
      List.mem_of_mem_filter ((List.perm_insertionSort entryIdLeP _).subset he)
    simp only [Function.comp_apply]
    exact hrender e hees
  rw [hmaps]

theorem buildPathsAux_label_err (e : BulkEntry) (rest : List BulkEntry)
    (c : Option Int → Option Int) (i : Int → Option NodeTreeInfo)
    (hpe : e.parentId = none)
    (hlen : (encodeJsonString e.label).length > MAX_LABEL_JSON_SIZE) :
    buildPathsAux (e :: rest) c i = .error .labelTooLarge := by
  simp only [buildPathsAux, hpe]
  rw [if_neg (by decide), if_pos hlen]

/-- C2 (amended): for a parents-before-children batch with unique ids, a
**successful** bulk load into an empty table round-trips: the forest
endpoint returns exactly the canonical nested-JSON rendering of the batch
(children in insertion order, roots in ascending id order — one bulk
transaction stamps every root with the same `updated_at`). -/
theorem bulk_roundtrip (es : List BulkEntry) (org : String) (now : Nat)
    (n : Nat) (st : List Row)
    (hpre : Pre es)
    (hok : bulk_insert_adjacency [] org es now = .ok (n, st)) :
    fetch_forest_json st org = canonicalRender es := by
  by_cases hemp : es.isEmpty
  · have hnil : es = [] := List.isEmpty_iff.mp hemp
    subst hnil
    rw [bulk_insert_adjacency] at hok
    rw [if_pos hemp] at hok
    cases hok
    rfl
  · have hok2 := hok
    rw [bulk_insert_adjacency, if_neg hemp] at hok2
    have hex : ∃ info, build_paths_for_bulk_insert es = .ok info := by
      cases hbp : build_paths_for_bulk_insert es with
      | error err =>
        simp only [hbp] at hok2
        cases hok2
      | ok info => exact ⟨info, rfl⟩
    obtain ⟨info, hinfo⟩ := hex
    have hspec := build_paths_spec es info hpre hinfo
    have hg : GoodInfo es info := ⟨hspec.1, hspec.2⟩
    obtain ⟨hstt, _⟩ := bulk_state_eq es org now info n st hinfo hspec.1 hok
    rw [hstt]
    exact fetch_forest_eq_canonical es org now info hpre hg

set_option maxRecDepth 8000 in
/-- C2 (counterexample to the unconditional claim): a batch satisfying the
claim's stated preconditions (parents before children, unique ids) whose
single label encodes to 1,000,001 characters.  The bulk load **fails** with
`LabelTooLarge`, the table stays empty, and the forest endpoint returns
`[]`, which is not the canonical rendering of the batch — so the claimed
round-trip does not hold for every such batch, only for those the loader
accepts. -/
theorem bulk_roundtrip_counterexample :
    Pre [bigLabelEntry] ∧
    bulk_insert_adjacency [] "default" [bigLabelEntry] 1 = .error .labelTooLarge ∧
    fetch_forest_json [] "default" = ['[', ']'] ∧
    canonicalRender [bigLabelEntry] ≠ ['[', ']'] := by
  refine ⟨⟨by decide, by decide⟩, ?_, by rfl, ?_⟩
  · have hbp : build_paths_for_bulk_insert [bigLabelEntry] = .error .labelTooLarge := by
      rw [build_paths_for_bulk_insert]
      apply buildPathsAux_label_err
      · rfl
      · rw [show bigLabelEntry.label = List.replicate 999999 'a' from rfl,
          encode_replicate_a_length]
        simp only [MAX_LABEL_JSON_SIZE]
        omega
    rw [bulk_insert_adjacency, if_neg (by decide)]
    simp only [hbp]
  · intro h
    have h2 : (canonicalRender [bigLabelEntry]).get? 1 = some ']' := by rw [h]; rfl
    have h3 : (canonicalRender [bigLabelEntry]).get? 1 = some lbrace := rfl
    rw [h3] at h2
    exact absurd (Option.some_inj.mp h2) (by decide)

/-- Witness for C2 on scenario 1 of the spec. -/
theorem bulk_roundtrip_witness :
    Pre scenario1 ∧
    bulk_insert_adjacency [] "default" scenario1 7 = .ok (4, scenario1Rows) ∧
    fetch_forest_json scenario1Rows "default" = canonicalRender scenario1 := by
  have hok : bulk_insert_adjacency [] "default" scenario1 7 = .ok (4, scenario1Rows) := by
    rfl
  exact ⟨⟨by decide, by decide⟩, hok,
    bulk_roundtrip scenario1 "default" 7 4 scenario1Rows ⟨by decide, by decide⟩ hok⟩

/-! ### C8: the clone service call, and the route that loses its result -/

theorem mapO_isSome {α β : Type} (f : α → Option β) :
    ∀ l : List α, (∀ x ∈ l, (f x).isSome = true) → (mapO f l).isSome = true := by
  intro l
  induction l with
  | nil => intro _; rfl
  | cons a t ih =>
    intro h
    obtain ⟨b, hb⟩ := Option.isSome_iff_exists.mp (h a (by simp))
    obtain ⟨bs, hbs⟩ := Option.isSome_iff_exists.mp (ih (fun x hx => h x (by simp [hx])))
    rw [mapO, hb, hbs]
    rfl

theorem mapO_length {α β : Type} (f : α → Option β) :
    ∀ (l : List α) (out : List β), mapO f l = some out → out.length = l.length := by
  intro l
  induction l with
  | nil =>
    intro out h
    simp only [mapO, Option.some.injEq] at h
    subst h
    rfl
  | cons a t ih =>
    intro out h
    rw [mapO] at h
    split at h
    · cases h
    · split at h
      · cases h
      · rename_i bs hbs
        simp only [Option.some.injEq] at h
        subst h
        simp [ih bs hbs]

theorem mapO_get_some {α β : Type} (f : α → Option β) :
    ∀ (l : List α) (out : List β), mapO f l = some out →
      ∀ (k : Nat) (a : α) (b : β), l.get? k = some a → out.get? k = some b → f a = some b := by
  intro l
  induction l with
  | nil => intro out h k a b ha _; simp at ha
  | cons x t ih =>
    intro out h k a b ha hb
    rw [mapO] at h
    split at h
    · cases h
    · rename_i v hv
      split at h
      · cases h
      · rename_i bs hbs
        simp only [Option.some.injEq] at h
        subst h
        cases k with
        | zero =>
          simp only [List.get?] at ha hb
          cases ha; cases hb
          exact hv
        | succ k2 =>
          simp only [List.get?] at ha hb
          exact ih bs hbs k2 a b ha hb

theorem mapO_mem_fwd {α β : Type} (f : α → Option β) :
    ∀ (l : List α) (out : List β), mapO f l = some out →
      ∀ a ∈ l, ∃ b ∈ out, f a = some b := by
  intro l
  induction l with
  | nil => intro out _ a ha; simp at ha
  | cons x t ih =>
    intro out h a ha
    rw [mapO] at h
    split at h
    · cases h
    · rename_i v hv
      split at h
      · cases h
      · rename_i bs hbs
        simp only [Option.some.injEq] at h
        subst h
        rcases List.mem_cons.mp ha with h' | h'
        · subst h'
          exact ⟨v, by simp, hv⟩
        · obtain ⟨b, hbmem, hfb⟩ := ih bs hbs a h'
          exact ⟨b, by simp [hbmem], hfb⟩

theorem mapO_map_rel {α β γ : Type} (f : α → Option β) (g : β → γ) (h2 : α → γ) :
    ∀ (l : List α) (out : List β), mapO f l = some out →
      (∀ a ∈ l, ∀ b, f a = some b → g b = h2 a) →
      out.map g = l.map h2 := by
  intro l
  induction l with
  | nil =>
    intro out h _
    simp only [mapO, Option.some.injEq] at h
    subst h
    rfl
  | cons x t ih =>
    intro out h hrel
    rw [mapO] at h
    split at h
    · cases h
    · rename_i v hv
      split at h
      · cases h
      · rename_i bs hbs
        simp only [Option.some.injEq] at h
        subst h
        rw [List.map_cons, List.map_cons, hrel x (by simp) v hv,
          ih bs hbs (fun a ha b hb => hrel a (by simp [ha]) b hb)]

theorem lookupNew_isSome_of_key : ∀ (l : List (Int × Int)) (x : Int),
    x ∈ l.map Prod.fst → (lookupNew l x).isSome = true := by
  intro l
  induction l with
  | nil => intro x hx; simp at hx
  | cons p t ih =>
    intro x hx
    obtain ⟨a, b⟩ := p
    rw [lookupNew]
    by_cases hxa : x = a
    · rw [if_pos hxa]; rfl
    · rw [if_neg hxa]
      have hx2 : x ∈ t.map Prod.fst := by
        rcases (by simpa using hx : x = a ∨ ∃ y, (x, y) ∈ t) with h' | ⟨y, hy⟩
        · exact absurd h' hxa
        · exact List.mem_map.mpr ⟨(x, y), hy, rfl⟩
      exact ih x hx2

theorem lookupNew_inj : ∀ (l : List (Int × Int)),
    (l.map Prod.fst).Nodup → (l.map Prod.snd).Nodup →
    ∀ (x y vx vy : Int), lookupNew l x = some vx → lookupNew l y = some vy →
      x ≠ y → vx ≠ vy := by
  intro l
  induction l with
  | nil => intro _ _ x y vx vy hx; simp [lookupNew] at hx
  | cons p t ih =>
    intro hk hv x y vx vy hx hy hxy
    obtain ⟨a, b⟩ := p
    simp only [List.map_cons, List.nodup_cons] at hk hv
    rw [lookupNew] at hx hy
    by_cases hxa : x = a
    · rw [if_pos hxa] at hx
      cases hx
      have hyne : ¬ (y = a) := fun hh => hxy (hxa.trans hh.symm)
      rw [if_neg hyne] at hy
      intro hvv
      exact hv.1 (hvv ▸ lookupNew_mem_snd t y vy hy)
    · rw [if_neg hxa] at hx
      by_cases hya : y = a
      · rw [if_pos hya] at hy
        cases hy
        intro hvv
        exact hv.1 (hvv ▸ lookupNew_mem_snd t x vx hx)
      · rw [if_neg hya] at hy
        exact ih hk.2 hv.2 x y vx vy hx hy hxy

theorem cloneRow_fields {oldToNew : List (Int × Int)} {sourceId : Int} {tgt : Option Row}
    {newSourceId newRootId : Int} {anchorIds anchorPos : List Int} {nextPos : Int}
    {org : String} {now : Nat} {node row : Row}
    (h : cloneRow oldToNew sourceId tgt newSourceId newRootId anchorIds anchorPos
      nextPos org now node = some row) :
    row.label = node.label ∧ row.labelJson = encodeJsonString node.label ∧
    row.orgId = org ∧ row.updatedAt = now ∧
    row.parentId = (if node.id = sourceId then tgt.map Row.id
      else node.parentId.bind (lookupNew oldToNew)) := by
  simp only [cloneRow] at h
  split at h
  · split at h
    · exact absurd h (by simp)
    · split at h
      · exact absurd h (by simp)
      · split at h
        · exact absurd h (by simp)
        · simp only [Option.some.injEq] at h
          subst h
          exact ⟨rfl, rfl, rfl, rfl, rfl⟩
  · exact absurd h (by simp)

/-- On a well-formed table, `cloneRow` never takes one of its error
branches for a subtree row: every id on the path from the source down to the
node is itself the id of a subtree row (so the fresh-id map is defined on
it), and `path_pos` is aligned with `path_ids`. -/
theorem cloneRow_total (st : List Row) (oldToNew : List (Int × Int)) (sourceId : Int)
    (tgt : Option Row) (newSourceId newRootId : Int) (anchorIds anchorPos : List Int)
    (nextPos : Int) (org : String) (now : Nat) (node : Row)
    (hwf : WfState st) (hnode : node ∈ st) (horg : node.orgId = org)
    (hmem : sourceId ∈ node.pathIds)
    (hkeys : ∀ a ∈ st, a.orgId = org → sourceId ∈ a.pathIds →
      (lookupNew oldToNew a.id).isSome = true) :
    (cloneRow oldToNew sourceId tgt newSourceId newRootId anchorIds anchorPos
      nextPos org now node).isSome = true := by
  obtain ⟨hne, hroot0, hlast, hlenpp, hone, hpar2, hmat⟩ := hwf.2 node hnode
  have hi : node.pathIds.indexOf sourceId < node.pathIds.length :=
    List.indexOf_lt_length.mpr hmem
  have hC := hkeys node hnode horg hmem
  have hA : ∀ x ∈ node.pathIds.drop (node.pathIds.indexOf sourceId),
      (lookupNew oldToNew x).isSome = true := by
    intro x hx
    obtain ⟨⟨k, hk⟩, hget⟩ := List.mem_iff_get.mp hx
    have hjlt : node.pathIds.indexOf sourceId + k < node.pathIds.length := by
      rw [List.length_drop] at hk
      omega
    have hgx : node.pathIds.get ⟨node.pathIds.indexOf sourceId + k, hjlt⟩ = x := by
      rw [← hget]
      simp [List.get_drop]
    have hx2 : node.pathIds.get? (node.pathIds.indexOf sourceId + k) = some x :=
      (List.get?_eq_get hjlt).trans (by rw [hgx])
    by_cases hlastj : node.pathIds.indexOf sourceId + k = node.pathIds.length - 1
    · have h1 : node.pathIds.get? (node.pathIds.length - 1) = some node.id := by
        rw [← List.getLast?_eq_get?]
        exact hlast
      rw [hlastj] at hx2
      have hxid : x = node.id := Option.some_inj.mp (hx2.symm.trans h1)
      rw [hxid]
      exact hC
    · have hjlt2 : node.pathIds.indexOf sourceId + k < node.pathIds.length - 1 := by
        omega
      obtain ⟨a, hast, haorg, hapath, hapos⟩ :=
        hmat (node.pathIds.indexOf sourceId + k) (List.mem_range.mpr hjlt2)
      obtain ⟨hane, haroot0, halast, halenpp, haone, hapar2, hamat⟩ := hwf.2 a hast
      have htl : (node.pathIds.take (node.pathIds.indexOf sourceId + k + 1)).getLast? =
          node.pathIds.get? (node.pathIds.indexOf sourceId + k) := by
        rw [List.getLast?_eq_get?]
        have hlen : (node.pathIds.take (node.pathIds.indexOf sourceId + k + 1)).length =
            node.pathIds.indexOf sourceId + k + 1 := by
          rw [List.length_take]
          omega
        rw [hlen]
        simp only [Nat.add_sub_cancel]
        exact List.get?_take (by omega)
      have hlasta : node.pathIds.get? (node.pathIds.indexOf sourceId + k) = some a.id := by
        rw [← htl, ← hapath]
        exact halast
      have haid : a.id = x := Option.some_inj.mp (hlasta.symm.trans hx2)
      have hidx : node.pathIds.get? (node.pathIds.indexOf sourceId) = some sourceId :=
        (List.get?_eq_get hi).trans (by rw [List.indexOf_get])
      have hsrca : sourceId ∈ a.pathIds := by
        rw [hapath]
        have hmem2 : (node.pathIds.take (node.pathIds.indexOf sourceId + k + 1)).get?
            (node.pathIds.indexOf sourceId) = some sourceId := by
          rw [List.get?_take (by omega)]
          exact hidx
        exact List.get?_mem hmem2
      rw [← haid]
      exact hkeys a hast (haorg.trans horg) hsrca
  have hB : ∀ p ∈ (node.pathIds.drop (node.pathIds.indexOf sourceId)).enum,
      ((fun p : Nat × Int => if p.1 = 0 then some nextPos
        else (node.pathPos.drop (node.pathIds.indexOf sourceId)).get? p.1) p).isSome
        = true := by
    intro p hp
    obtain ⟨k, v⟩ := p
    by_cases hk0 : k = 0
    · simp [hk0]
    · simp only [if_neg hk0]
      have hkv := List.mem_enum_iff_get?.mp hp
      have hkl : k < (node.pathIds.drop (node.pathIds.indexOf sourceId)).length := by
        obtain ⟨hh, _⟩ := List.get?_eq_some.mp hkv
        exact hh
      have hkl2 : k < (node.pathPos.drop (node.pathIds.indexOf sourceId)).length := by
        rw [List.length_drop] at hkl ⊢
        rw [hlenpp]
        omega
      rw [List.get?_eq_get hkl2]
      rfl
  obtain ⟨tailIds, hti⟩ := Option.isSome_iff_exists.mp (mapO_isSome _ _ hA)
  obtain ⟨tailPos, htp⟩ := Option.isSome_iff_exists.mp (mapO_isSome _ _ hB)
  obtain ⟨newId, hni⟩ := Option.isSome_iff_exists.mp hC
  simp only [cloneRow]
  rw [if_pos hmem, hti, htp, hni]
  rfl

/-- On a well-formed table, every row's `root_id` is the id of some row. -/
theorem rootId_mem (st : List Row) (hwf : WfState st) (r : Row) (hr : r ∈ st) :
    r.rootId ∈ st.map Row.id := by
  obtain ⟨hne, hroot0, hlast, hlenpp, hone, hpar2, hmat⟩ := hwf.2 r hr
  cases hL : r.pathIds with
  | nil => exact absurd hL hne
  | cons x tl =>
    have hx : x = r.rootId := by
      rw [hL] at hroot0
      simpa using hroot0
    cases tl with
    | nil =>
      rw [hL] at hlast
      have hxid : x = r.id := by simpa using hlast
      rw [← hx, hxid]
      exact List.mem_map_of_mem Row.id hr
    | cons y tl2 =>
      have h0 : 0 ∈ List.range (r.pathIds.length - 1) := by
        rw [hL]; simp
      obtain ⟨a, hast, _, hapath, _⟩ := hmat 0 h0
      have hal := (hwf.2 a hast).2.2.1
      rw [hapath] at hal
      rw [show r.pathIds.take (0 + 1) = [x] from by rw [hL]; rfl] at hal
      rw [show ([x] : List Int).getLast? = some x from rfl] at hal
      have haid : a.id = x := (Option.some_inj.mp hal).symm
      rw [← hx, ← haid]
      exact List.mem_map_of_mem Row.id hast

theorem pairs_map_fst (supply : Nat → Nat) :
    ∀ (k : Nat) (l : List Row),
      ((List.enumFrom k l).map (fun p => (p.2.id, genNodeId (supply p.1)))).map Prod.fst =
        l.map Row.id := by
  intro k l
  induction l generalizing k with
  | nil => rfl
  | cons a t ih => simp [List.enumFrom, ih]

theorem pairs_map_snd (supply : Nat → Nat) :
    ∀ (k : Nat) (l : List Row),
      ((List.enumFrom k l).map (fun p => (p.2.id, genNodeId (supply p.1)))).map Prod.snd =
        (List.range' k l.length).map (fun i => genNodeId (supply i)) := by
  intro k l
  induction l generalizing k with
  | nil => rfl
  | cons a t ih => simp [List.enumFrom, List.range'_succ, ih]

/-- Service-level specification of a successful clone (auxiliary to the C8
analysis): whenever `clone_node` returns, cloning `source` under `target`
returns the fresh id of
the clone's root, which differs from every pre-existing id; every
pre-existing row is unchanged except that the destination root's
`updated_at` is stamped; the inserted rows have the source subtree's labels
(in the service's depth order), pairwise distinct ids all disjoint from the
pre-existing ids; the clone of the source itself hangs under the target; and
every other cloned row's parent is the clone of its original's parent —
the copied subtree has the source subtree's shape.  (Fresh ids are
guaranteed by the uuid supply hypotheses; uuid collisions are the only way
out.) -/
theorem clone_spec (st : List Row) (org : String) (sourceId tgtId : Int)
    (supply : Nat → Nat) (now : Nat) (srcRow tgtRow : Row) (resp : CloneResp) (st3 : List Row)
    (hwf : WfState st)
    (hsrc : st.find? (fun r => r.id == sourceId && r.orgId == org) = some srcRow)
    (htgt : st.find? (fun r => r.id == tgtId && r.orgId == org) = some tgtRow)
    (hfresh1 : (cloneNews st org sourceId supply).Nodup)
    (hfresh2 : ∀ v ∈ cloneNews st org sourceId supply, v ∉ st.map Row.id)
    (hrun : clone_node st org sourceId (some tgtId) supply now = .ok (resp, st3)) :
    resp.success = true ∧
    (∃ newSourceId,
      resp.id = some newSourceId ∧
      newSourceId ∉ st.map Row.id ∧
      ∃ newRows,
        st3 = st.map (fun r => if r.id = tgtRow.rootId then setUpdated r now else r)
          ++ newRows ∧
        (∃ rsrc ∈ newRows, rsrc.id = newSourceId ∧ rsrc.parentId = some tgtRow.id ∧
          rsrc.label = srcRow.label) ∧
        newRows.map Row.label =
          ((cloneSubtree st org sourceId).insertionSort depthLeP).map Row.label ∧
        (∀ r ∈ newRows, r.id ∉ st.map Row.id) ∧
        (newRows.map Row.id).Nodup ∧
        (∀ k n r, ((cloneSubtree st org sourceId).insertionSort depthLeP).get? k = some n →
          newRows.get? k = some r →
          r.label = n.label ∧ r.labelJson = encodeJsonString n.label ∧
          (n.id = sourceId → r.parentId = some tgtRow.id) ∧
          (n.id ≠ sourceId → ∃ k2 n2 r2,
            ((cloneSubtree st org sourceId).insertionSort depthLeP).get? k2 = some n2 ∧
            newRows.get? k2 = some r2 ∧
            n.parentId = some n2.id ∧ r.parentId = some r2.id))) := by
  have hsrcmem : srcRow ∈ st := List.mem_of_find?_eq_some hsrc
  have hsrcp := List.find?_some hsrc
  simp only [Bool.and_eq_true, beq_iff_eq] at hsrcp
  obtain ⟨hsrcid, hsrcorg⟩ := hsrcp
  have htgtmem : tgtRow ∈ st := List.mem_of_find?_eq_some htgt
  have htgtp := List.find?_some htgt
  simp only [Bool.and_eq_true, beq_iff_eq] at htgtp
  obtain ⟨htgtid, htgtorg⟩ := htgtp
  have hkeysmap :
      (((st.filter (fun r => r.orgId == org && r.pathIds.contains sourceId)).enum.map
        (fun p => (p.2.id, genNodeId (supply p.1)))).map Prod.fst) =
      (st.filter (fun r => r.orgId == org && r.pathIds.contains sourceId)).map Row.id := by
    exact pairs_map_fst supply 0 _
  have hvalsmap :
      (((st.filter (fun r => r.orgId == org && r.pathIds.contains sourceId)).enum.map
        (fun p => (p.2.id, genNodeId (supply p.1)))).map Prod.snd) =
      cloneNews st org sourceId supply := by
    rw [show (st.filter (fun r => r.orgId == org && r.pathIds.contains sourceId)).enum =
      List.enumFrom 0 (st.filter (fun r => r.orgId == org && r.pathIds.contains sourceId))
      from rfl]
    rw [pairs_map_snd supply 0 _]
    rw [show cloneNews st org sourceId supply =
      (List.range (st.filter
        (fun r => r.orgId == org && r.pathIds.contains sourceId)).length).map
        (fun i => genNodeId (supply i)) from rfl]
    rw [List.range_eq_range']
  have hsubmem : ∀ a ∈ st, a.orgId = org → sourceId ∈ a.pathIds →
      a ∈ st.filter (fun r => r.orgId == org && r.pathIds.contains sourceId) := by
    intro a ha h1 h2
    apply List.mem_filter.mpr
    exact ⟨ha, by simp [h1, h2]⟩
  have hsubprops : ∀ a ∈ st.filter (fun r => r.orgId == org && r.pathIds.contains sourceId),
      a ∈ st ∧ a.orgId = org ∧ sourceId ∈ a.pathIds := by
    intro a ha
    obtain ⟨h1, h2⟩ := List.mem_filter.mp ha
    simp only [Bool.and_eq_true, beq_iff_eq] at h2
    exact ⟨h1, h2.1, by simpa using h2.2⟩
  have hkeysfun : ∀ a ∈ st, a.orgId = org → sourceId ∈ a.pathIds →
      (lookupNew ((st.filter (fun r => r.orgId == org && r.pathIds.contains sourceId)).enum.map
        (fun p => (p.2.id, genNodeId (supply p.1)))) a.id).isSome = true := by
    intro a ha h1 h2
    apply lookupNew_isSome_of_key
    rw [hkeysmap]
    exact List.mem_map_of_mem Row.id (hsubmem a ha h1 h2)
  have hsrcpath : sourceId ∈ srcRow.pathIds := by
    have h := (hwf.2 srcRow hsrcmem).2.2.1
    rw [List.getLast?_eq_getElem?] at h
    have := List.getElem?_mem h
    rw [hsrcid] at this
    exact this
  have hkeynd : (((st.filter (fun r => r.orgId == org && r.pathIds.contains sourceId)).enum.map
      (fun p => (p.2.id, genNodeId (supply p.1)))).map Prod.fst).Nodup := by
    rw [hkeysmap]
    exact List.Nodup.sublist ((List.filter_sublist st).map Row.id) hwf.1
  have hvalnd : (((st.filter (fun r => r.orgId == org && r.pathIds.contains sourceId)).enum.map
      (fun p => (p.2.id, genNodeId (supply p.1)))).map Prod.snd).Nodup := by
    rw [hvalsmap]
    exact hfresh1
  have hvalfresh : ∀ v ∈ ((st.filter (fun r => r.orgId == org && r.pathIds.contains sourceId)).enum.map
      (fun p => (p.2.id, genNodeId (supply p.1)))).map Prod.snd, v ∉ st.map Row.id := by
    rw [hvalsmap]
    exact hfresh2
  have hsubnd : ((st.filter (fun r => r.orgId == org && r.pathIds.contains sourceId)).map
      Row.id).Nodup :=
    List.Nodup.sublist ((List.filter_sublist st).map Row.id) hwf.1
  simp only [clone_node, hsrc, htgt] at hrun
  simp only [cloneApply, Option.map_some'] at hrun
  split at hrun
  · exfalso
    rename_i hnone
    have hx := hkeysfun srcRow hsrcmem hsrcorg hsrcpath
    rw [hsrcid, hnone] at hx
    cases hx
  · rename_i nsid hlk
    split at hrun
    · exfalso
      rename_i hmOnone
      have hx := mapO_isSome (cloneRow
          ((st.filter (fun r => r.orgId == org && r.pathIds.contains sourceId)).enum.map
            (fun p => (p.2.id, genNodeId (supply p.1))))
          sourceId (some tgtRow) nsid tgtRow.rootId (tgtRow.pathIds ++ [nsid])
          (tgtRow.pathPos ++ [maxPos st org (some tgtRow.id) + 1000])
          (maxPos st org (some tgtRow.id) + 1000) org now)
        ((st.filter (fun r => r.orgId == org && r.pathIds.contains sourceId)).insertionSort
          depthLeP)
        (fun n hn => by
          obtain ⟨h1, h2, h3⟩ := hsubprops n ((List.perm_insertionSort depthLeP _).subset hn)
          exact cloneRow_total st _ sourceId _ _ _ _ _ _ org now n hwf h1 h2 h3 hkeysfun)
      rw [hmOnone] at hx
      cases hx
    · rename_i newRows hmO
      split at hrun
      case isFalse => exact absurd hrun (by simp)
      cases hrun
      have hsortlen : newRows.length =
          ((st.filter (fun r => r.orgId == org && r.pathIds.contains sourceId)).insertionSort
            depthLeP).length :=
        mapO_length _ _ _ hmO
      have hfreshrow : ∀ r ∈ newRows, r.id ∉ st.map Row.id := by
        intro r hr
        obtain ⟨n, _, hcr⟩ := mapO_mem _ _ _ hmO r hr
        have hid := cloneRow_id hcr
        exact hvalfresh r.id (lookupNew_mem_snd _ _ _ hid)
      have hnsidval : nsid ∉ st.map Row.id := by
        exact hvalfresh nsid (lookupNew_mem_snd _ _ _ hlk)
      refine ⟨rfl, nsid, rfl, hnsidval, newRows, ?_, ?_, ?_, hfreshrow, ?_, ?_⟩
      · -- frame: the bump map distributes and fixes the new rows
        rw [List.map_append]
        congr 1
        have hone : ∀ r ∈ newRows,
            (if r.id = tgtRow.rootId then setUpdated r now else r) = r := by
          intro r hr
          rw [if_neg ?_]
          intro hh
          exact hfreshrow r hr (hh ▸ rootId_mem st hwf tgtRow htgtmem)
        rw [List.map_congr_left hone]
        simp
      · -- the clone of the source sits under the target with the returned id
        obtain ⟨h1, h2, h3⟩ := hsubprops srcRow (hsubmem srcRow hsrcmem hsrcorg hsrcpath)
        have hsrcsorted : srcRow ∈ (st.filter
            (fun r => r.orgId == org && r.pathIds.contains sourceId)).insertionSort depthLeP :=
          ((List.perm_insertionSort depthLeP _).symm).subset
            (hsubmem srcRow hsrcmem hsrcorg hsrcpath)
        obtain ⟨b, hbmem, hcb⟩ := mapO_mem_fwd _ _ _ hmO srcRow hsrcsorted
        have hbid : b.id = nsid := by
          have := cloneRow_id hcb
          rw [hsrcid] at this
          exact Option.some_inj.mp (this.symm.trans hlk)
        have hbf := cloneRow_fields hcb
        refine ⟨b, hbmem, hbid, ?_, hbf.1⟩
        rw [hbf.2.2.2.2, if_pos hsrcid]
        rfl
      · exact mapO_map_rel _ Row.label Row.label _ _ hmO
          (fun a _ b hb => (cloneRow_fields hb).1)
      · -- distinct new ids
        have hidmap : newRows.map Row.id =
            ((st.filter (fun r => r.orgId == org && r.pathIds.contains sourceId)).insertionSort
              depthLeP).map (fun a =>
                (lookupNew ((st.filter
                  (fun r => r.orgId == org && r.pathIds.contains sourceId)).enum.map
                  (fun p => (p.2.id, genNodeId (supply p.1)))) a.id).getD 0) :=
          mapO_map_rel _ Row.id _ _ _ hmO (fun a _ b hb => by rw [cloneRow_id hb]; rfl)
        rw [hidmap]
        apply List.Nodup.map_on
        · intro x hx y hy hxy
          obtain ⟨hx1, hx2, hx3⟩ := hsubprops x ((List.perm_insertionSort depthLeP _).subset hx)
          obtain ⟨hy1, hy2, hy3⟩ := hsubprops y ((List.perm_insertionSort depthLeP _).subset hy)
          obtain ⟨vx, hvx⟩ := Option.isSome_iff_exists.mp (hkeysfun x hx1 hx2 hx3)
          obtain ⟨vy, hvy⟩ := Option.isSome_iff_exists.mp (hkeysfun y hy1 hy2 hy3)
          rw [hvx, hvy] at hxy
          simp only [Option.getD_some] at hxy
          by_cases hid : x.id = y.id
          · exact List.inj_on_of_nodup_map hsubnd
              ((List.perm_insertionSort depthLeP _).subset hx)
              ((List.perm_insertionSort depthLeP _).subset hy) hid
          · exact absurd hxy (lookupNew_inj _ hkeynd hvalnd x.id y.id vx vy hvx hvy hid)
        · exact ((List.perm_insertionSort depthLeP _).nodup_iff).mpr
            (List.Nodup.filter _ (List.Nodup.of_map Row.id hwf.1))
      · -- shape
        intro k n r hkn hkr
        have hcr : cloneRow _ sourceId (some tgtRow) nsid _ _ _ _ org now n = some r :=
          mapO_get_some _ _ _ hmO k n r hkn hkr
        have hnf := cloneRow_fields hcr
        have hnsorted : n ∈ (st.filter
            (fun r => r.orgId == org && r.pathIds.contains sourceId)).insertionSort depthLeP :=
          List.get?_mem hkn
        obtain ⟨hn1, hn2, hn3⟩ := hsubprops n ((List.perm_insertionSort depthLeP _).subset hnsorted)
        refine ⟨hnf.1, hnf.2.1, ?_, ?_⟩
        · intro hns
          rw [hnf.2.2.2.2, if_pos hns]
          rfl
        · intro hns
          obtain ⟨hne, hroot0, hlastn, hlenpp, honep, hpar2, hmat⟩ := hwf.2 n hn1
          -- the source occurs strictly above the node on its path
          have hin : n.pathIds.indexOf sourceId < n.pathIds.length :=
            List.indexOf_lt_length.mpr hn3
          have hidx : n.pathIds.get? (n.pathIds.indexOf sourceId) = some sourceId :=
            (List.get?_eq_get hin).trans (by rw [List.indexOf_get])
          have hlastval : n.pathIds.get? (n.pathIds.length - 1) = some n.id := by
            rw [← List.getLast?_eq_get?]
            exact hlastn
          have hinlt : n.pathIds.indexOf sourceId < n.pathIds.length - 1 := by
            rcases Nat.lt_or_ge (n.pathIds.indexOf sourceId) (n.pathIds.length - 1) with h | h
            · exact h
            · exfalso
              have hieq : n.pathIds.indexOf sourceId = n.pathIds.length - 1 := by omega
              rw [hieq, hlastval] at hidx
              exact hns (Option.some_inj.mp hidx.symm).symm
          have hlen2 : 2 ≤ n.pathIds.length := by omega
          -- the parent id
          obtain ⟨np, hnp⟩ : ∃ np, n.parentId = some np := by
            have := hpar2 hlen2
            rw [this]
            have hlt : n.pathIds.length - 2 < n.pathIds.length := by omega
            exact ⟨_, (List.get?_eq_get hlt).trans rfl⟩
          -- the parent row
          obtain ⟨aP, haPst, haPorg, haPpath, _⟩ :=
            hmat (n.pathIds.length - 2) (List.mem_range.mpr (by omega))
          have haPlast := (hwf.2 aP haPst).2.2.1
          rw [haPpath] at haPlast
          have htake : (n.pathIds.take (n.pathIds.length - 2 + 1)).getLast? =
              n.pathIds.get? (n.pathIds.length - 2) := by
            rw [List.getLast?_eq_get?]
            have hlen3 : (n.pathIds.take (n.pathIds.length - 2 + 1)).length =
                n.pathIds.length - 2 + 1 := by
              rw [List.length_take]
              omega
            rw [hlen3]
            simp only [Nat.add_sub_cancel]
            exact List.get?_take (by omega)
          rw [htake] at haPlast
          have haPid : aP.id = np := by
            have h1 := hpar2 hlen2
            rw [hnp] at h1
            exact Option.some_inj.mp (haPlast.symm.trans h1.symm)
          have haPsrc : sourceId ∈ aP.pathIds := by
            rw [haPpath]
            have : (n.pathIds.take (n.pathIds.length - 2 + 1)).get?
                (n.pathIds.indexOf sourceId) = some sourceId := by
              rw [List.get?_take (by omega)]
              exact hidx
            exact List.get?_mem this
          have haPsub := hsubmem aP haPst (haPorg.trans hn2) haPsrc
          have haPsorted : aP ∈ (st.filter
              (fun r => r.orgId == org && r.pathIds.contains sourceId)).insertionSort depthLeP :=
            ((List.perm_insertionSort depthLeP _).symm).subset haPsub
          obtain ⟨k2, hk2⟩ := List.mem_iff_get?.mp haPsorted
          have hk2lt : k2 < newRows.length := by
            rw [hsortlen]
            obtain ⟨hh, _⟩ := List.get?_eq_some.mp hk2
            exact hh
          obtain ⟨r2, hr2⟩ : ∃ r2, newRows.get? k2 = some r2 :=
            ⟨_, List.get?_eq_get hk2lt⟩
          have hcr2 := mapO_get_some _ _ _ hmO k2 aP r2 hk2 hr2
          have hr2id := cloneRow_id hcr2
          refine ⟨k2, aP, r2, hk2, hr2, by rw [hnp, haPid], ?_⟩
          rw [hnf.2.2.2.2, if_neg hns, hnp]
          simp only [Option.some_bind]
          rw [← haPid]
          exact hr2id

/-- Witness for `clone_spec`: clone node 2 under node 5 on the scenario tree
`1→2→{3,4}, 1→5`, with a fresh uuid supply. -/
theorem clone_spec_witness :
    clone_node mvState "default" 2 (some 5) (fun i => 1000 + i) 9 =
      .ok ({ success := true, message := "Successfully cloned node", id := some 1000 },
        c8State) ∧
    (1000 : Int) ∉ mvState.map Row.id := by
  have h := clone_spec mvState "default" 2 5 (fun i => 1000 + i) 9
    (mvState.get ⟨1, by decide⟩) (mvState.get ⟨4, by decide⟩)
    { success := true, message := "Successfully cloned node", id := some 1000 } c8State
    (by decide) (by rfl) (by rfl) (by decide) (by decide) (by rfl)
  obtain ⟨h1, nsid, h2, h3, _⟩ := h
  refine ⟨by rfl, ?_⟩
  have h4 : (1000 : Int) = nsid := Option.some_inj.mp h2
  rw [h4]
  exact h3

/-- C8 (divergence): on the scenario tree `1→2→{3,4}, 1→5`, cloning node 2
under node 5 succeeds in the service — the transaction commits the three
cloned rows and returns `id = some 1000` — but the route passes the whole
service response object as the `id : str | None` field of the
`CloneNodeResponse` it builds, so pydantic raises a `ValidationError` (a
subclass of `ValueError`) and the HTTP operation answers **400** without
ever returning the clone id, the table already mutated. -/
theorem clone_route_loses_id :
    clone_node mvState "default" 2 (some 5) (fun i => 1000 + i) 9 =
      .ok ({ success := true, message := "Successfully cloned node", id := some 1000 },
        c8State) ∧
    clone_route mvState "default" 2 (some 5) (fun i => 1000 + i) 9 =
      ((400, none), c8State) ∧
    c8State ≠ mvState ∧
    (1000 : Int) ∉ mvState.map Row.id := by
  refine ⟨by rfl, by rfl, by decide, by decide⟩

end TreeOps
